import Mathlib

/-!
Verification of the `pubgrub-go` dependency solver.

This file gives a shallow embedding, in Lean 4, of the parts of the Go
source that the specification's claims are about:

* the version-interval algebra (`versionBound`, `versionInterval`,
  `normalizeIntervals`, union / intersection / complement / containment,
  from `version_interval_set.go` and the interval/bound source files);
* the term and incompatibility model (`term_utils.go`, `incompatibility.go`);
* the partial solution (`partial_solution.go`);
* the solver decision logic (`pickVersion`, the no-version fabrication in
  `Solver.Solve`, `relationForTerm`).

Versions are modelled by an arbitrary linearly ordered type `V`; the Go
`Version.Sort` three-way comparison is `sortV`.  Go interfaces holding `nil`
are modelled with `Option`.  Machine integers never overflow in the embedded
code paths, so levels and indices are plain `Int` / `Nat`.

Proofs about the interval algebra go through an abstraction of bounds into
`Cut V`, the linear order of "positions" between versions: a finite bound
maps to the position just before or just after its version, and the two Go
comparators `compareLower` / `compareUpper` become the `Cut` order.
-/

namespace PubGrubGo

/-! ## Versions -/

variable {V : Type} [LinearOrder V]

/-- Model of `Version.Sort`: three-way comparison returning a sign. -/
def sortV (a b : V) : Int :=
  if a < b then -1 else if b < a then 1 else 0

/-! ## Bounds (`versionBound`, from the interval/bound source file)

The Go struct stores a `version`, an `inclusive` flag and an `infinite`
sentinel; only the three shapes produced by its constructors occur
(`newLowerBound` / `newUpperBound` / the two infinity constructors), so the
model is the corresponding inductive. -/

inductive versionBound (V : Type) where
  | negInf : versionBound V
  | finite (version : V) (inclusive : Bool) : versionBound V
  | posInf : versionBound V
deriving DecidableEq

/-- Model of `compareLower`: lower bounds, inclusive before exclusive on ties. -/
def compareLower : versionBound V → versionBound V → Int
  | .negInf, .negInf => 0
  | .negInf, _ => -1
  | _, .negInf => 1
  | .posInf, .posInf => 0
  | .posInf, _ => 1
  | _, .posInf => -1
  | .finite va ia, .finite vb ib =>
    let c := sortV va vb
    if c ≠ 0 then c
    else if ia = ib then 0
    else if ia then -1 else 1

/-- Model of `compareUpper`: upper bounds, inclusive after exclusive on ties. -/
def compareUpper : versionBound V → versionBound V → Int
  | .posInf, .posInf => 0
  | .posInf, _ => 1
  | _, .posInf => -1
  | .negInf, .negInf => 0
  | .negInf, _ => -1
  | _, .negInf => 1
  | .finite va ia, .finite vb ib =>
    let c := sortV va vb
    if c ≠ 0 then c
    else if ia = ib then 0
    else if ia then 1 else -1

/-- Model of the generic `min` helper: first argument wins ties. -/
def cmin {α : Type} (a b : α) (cmp : α → α → Int) : α :=
  if cmp a b ≤ 0 then a else b

/-- Model of the generic `max` helper: first argument wins ties. -/
def cmax {α : Type} (a b : α) (cmp : α → α → Int) : α :=
  if cmp a b ≥ 0 then a else b

/-! ## Intervals (`versionInterval`) -/

structure versionInterval (V : Type) where
  lower : versionBound V
  upper : versionBound V
deriving DecidableEq

namespace versionInterval

/-- Model of `versionInterval.isEmpty`. -/
def isEmpty (iv : versionInterval V) : Bool :=
  match iv.lower, iv.upper with
  | .posInf, _ => true
  | _, .negInf => true
  | .negInf, .posInf => false
  | .negInf, _ => false
  | _, .posInf => false
  | .finite lv li, .finite uv ui =>
    let c := sortV lv uv
    if c < 0 then false
    else if c > 0 then true
    else !li || !ui

/-- The lower-bound test of `versionInterval.contains` (the first `if` block). -/
def lowCheck (l : versionBound V) (v : V) : Bool :=
  match l with
  | .negInf => true
  | .posInf => false
  | .finite lv li =>
    let c := sortV v lv
    if c < 0 then false else if c = 0 && !li then false else true

/-- The upper-bound test of `versionInterval.contains` (the second `if` block). -/
def upCheck (u : versionBound V) (v : V) : Bool :=
  match u with
  | .posInf => true
  | .negInf => false
  | .finite uv ui =>
    let c := sortV v uv
    if c > 0 then false else if c = 0 && !ui then false else true

/-- Model of `versionInterval.contains`: the version lies between the bounds.
(The Go `contains` guards the `version` reads with the infinity tests, which
is the `match` in each check; its `nil`-version guard corresponds to
applying `contains` only to actual versions.) -/
def contains (iv : versionInterval V) (v : V) : Bool :=
  lowCheck iv.lower v && upCheck iv.upper v

end versionInterval

/-- Model of `newInterval`: `none` when the interval would be empty.

The Go `contains` reads `iv.lower.version` only behind an `isNegInfinity`
test (and symmetrically for the upper bound), matching the `match` above;
its `nil`-version guard corresponds to calling `contains` only on actual
versions. -/
def newInterval (lower upper : versionBound V) : Option (versionInterval V) :=
  let iv : versionInterval V := ⟨lower, upper⟩
  if iv.isEmpty then none else some iv

/-- Model of `upperLessThanLower`: gap detection between an upper and a lower bound. -/
def upperLessThanLower : versionBound V → versionBound V → Bool
  | .negInf, l => !(l matches .negInf)
  | u, .posInf => !(u matches .posInf)
  | .posInf, _ => false
  | _, .negInf => false
  | .finite uv ui, .finite lv li =>
    let c := sortV uv lv
    if c < 0 then true
    else if c > 0 then false
    else !ui || !li

namespace versionInterval

/-- Model of `versionInterval.overlaps`. -/
def overlaps (iv other : versionInterval V) : Bool :=
  if upperLessThanLower iv.upper other.lower then false
  else if upperLessThanLower other.upper iv.lower then false
  else true

/-- Model of `versionInterval.touches`. -/
def touches (iv other : versionInterval V) : Bool :=
  !upperLessThanLower iv.upper other.lower &&
  !upperLessThanLower other.upper iv.lower

/-- Model of `versionInterval.merge`. -/
def merge (iv other : versionInterval V) : versionInterval V :=
  { lower := cmin iv.lower other.lower compareLower
    upper := cmax iv.upper other.upper compareUpper }

/-- Model of `versionInterval.covers`. -/
def covers (iv other : versionInterval V) : Bool :=
  if compareLower iv.lower other.lower > 0 then false
  else if compareUpper iv.upper other.upper < 0 then false
  else true

/-- Model of `complementLowerBound`. -/
def complementLowerBound (iv : versionInterval V) : versionBound V :=
  match iv.upper with
  | .posInf => .posInf
  | .negInf => .negInf
  | .finite v i => .finite v (!i)

/-- Model of `complementUpperBound`. -/
def complementUpperBound (iv : versionInterval V) : versionBound V :=
  match iv.lower with
  | .negInf => .negInf
  | .posInf => .posInf
  | .finite v i => .finite v (!i)

end versionInterval

/-! ## Normalization (`normalizeIntervals`)

The Go code filters out empty intervals, sorts with `slices.SortFunc` by
`compareLower` on the lower bounds, and then merges touching neighbours in
one sweep.  `slices.SortFunc` leaves the order of comparison-equal elements
unspecified; the model uses a stable insertion sort, one admissible
outcome (lower-bound ties always merge, so the tie order cannot change the
sweep's result). -/

/-- The sort relation used by `normalizeIntervals`. -/
def lowerLE (a b : versionInterval V) : Prop :=
  compareLower a.lower b.lower ≤ 0

instance : DecidableRel (lowerLE (V := V)) := fun a b =>
  inferInstanceAs (Decidable (_ ≤ _))

/-- The merging sweep of `normalizeIntervals` over the sorted list. -/
def mergeSweep : versionInterval V → List (versionInterval V) → List (versionInterval V)
  | last, [] => [last]
  | last, cur :: rest =>
    if last.touches cur then mergeSweep (last.merge cur) rest
    else last :: mergeSweep cur rest

/-- Model of `normalizeIntervals`. -/
def normalizeIntervals (intervals : List (versionInterval V)) : List (versionInterval V) :=
  match (intervals.filter (fun iv => !iv.isEmpty)).insertionSort lowerLE with
  | [] => []
  | first :: rest => mergeSweep first rest

/-! ## Interval sets (`VersionIntervalSet`)

A `VersionIntervalSet` is its `intervals` slice; the model is the list. -/

/-- The interval list of a `VersionIntervalSet`. -/
abbrev VSet (V : Type) := List (versionInterval V)

/-- Model of `EmptyVersionSet` / the zero `VersionIntervalSet`. -/
def emptySet (V : Type) : VSet V := []

/-- Model of `FullVersionSet`. -/
def fullSet (V : Type) : VSet V := [⟨.negInf, .posInf⟩]

/-- Model of `VersionIntervalSet.Singleton` (a `nil` version gives the empty set). -/
def singletonSet : Option V → VSet V
  | none => []
  | some v =>
    match newInterval (.finite v true) (.finite v true) with
    | some iv => [iv]
    | none => []

/-- Model of `VersionIntervalSet.Union`. -/
def vsUnion (s o : VSet V) : VSet V :=
  normalizeIntervals (s ++ o)

/-- Model of `intersectInterval`. -/
def intersectInterval (a b : versionInterval V) : Option (versionInterval V) :=
  newInterval (cmax a.lower b.lower compareLower) (cmin a.upper b.upper compareUpper)

/-- The two-pointer sweep inside `VersionIntervalSet.Intersection`. -/
def interSweep : VSet V → VSet V → VSet V
  | [], _ => []
  | _, [] => []
  | a :: as_, b :: bs =>
    let head :=
      match intersectInterval a b with
      | some iv => [iv]
      | none => []
    if compareUpper a.upper b.upper < 0 then
      head ++ interSweep as_ (b :: bs)
    else
      head ++ interSweep (a :: as_) bs
termination_by A B => A.length + B.length

/-- Model of `VersionIntervalSet.Intersection`. -/
def vsInter (s o : VSet V) : VSet V :=
  if s.isEmpty || o.isEmpty then []
  else normalizeIntervals (interSweep s o)

/-- The gap-collecting loop inside `VersionIntervalSet.Complement`,
parameterized by the rolling `currentLower` bound. -/
def complGaps (currentLower : versionBound V) : VSet V → VSet V
  | [] =>
    match newInterval currentLower .posInf with
    | some tail => [tail]
    | none => []
  | iv :: rest =>
    let gapUpper := iv.complementUpperBound
    let gaps :=
      match newInterval currentLower gapUpper with
      | some gap => [gap]
      | none => []
    gaps ++ complGaps iv.complementLowerBound rest

/-- Model of `VersionIntervalSet.Complement`. -/
def vsCompl (s : VSet V) : VSet V :=
  if s.isEmpty then fullSet V
  else normalizeIntervals (complGaps .negInf s)

/-- Model of `VersionIntervalSet.Contains`. -/
def vsContains (s : VSet V) (v : V) : Bool :=
  s.any (fun iv => iv.contains v)

/-- Model of `VersionIntervalSet.IsEmpty`. -/
def vsIsEmpty (s : VSet V) : Bool :=
  s.isEmpty

/-- The sweep inside `VersionIntervalSet.IsSubset` (after its two early
returns for an empty receiver or an empty argument). -/
def subsetSweep : VSet V → VSet V → Bool
  | [], _ => true
  | _ :: _, [] => false
  | a :: as_, b :: bs =>
    if b.covers a then subsetSweep as_ (b :: bs)
    else if upperLessThanLower b.upper a.lower then subsetSweep (a :: as_) bs
    else false
termination_by A B => A.length + B.length

/-- Model of `VersionIntervalSet.IsSubset`. -/
def vsIsSubset (s o : VSet V) : Bool :=
  if s.isEmpty then true
  else if o.isEmpty then false
  else subsetSweep s o

/-- The sweep inside `VersionIntervalSet.IsDisjoint`. -/
def disjointSweep : VSet V → VSet V → Bool
  | [], _ => true
  | _, [] => true
  | a :: as_, b :: bs =>
    if a.overlaps b then false
    else if compareUpper a.upper b.upper < 0 then disjointSweep as_ (b :: bs)
    else disjointSweep (a :: as_) bs
termination_by A B => A.length + B.length

/-- Model of `VersionIntervalSet.IsDisjoint`. -/
def vsIsDisjoint (s o : VSet V) : Bool :=
  if s.isEmpty then true
  else if o.isEmpty then true
  else disjointSweep s o

/-- Model of `singletonVersionFromSet`. -/
def singletonVersionFromSet (s : VSet V) : Option V :=
  match s with
  | [iv] =>
    match iv.lower, iv.upper with
    | .finite lv li, .finite uv ui =>
      if sortV lv uv = 0 then
        if li && ui then some lv else none
      else none
    | _, _ => none
  | _ => none

/-! ## The cut abstraction (proof infrastructure)

A bound denotes a position in the linear order of "cuts": `⊥`, then for each
version `v` the position just before `v` and the position just after `v`
(lexicographically `(v, false)` and `(v, true)`), then `⊤`.  Lower and upper
bounds denote cuts through `LC` and `UC`; the Go comparators and emptiness
tests become order relations on cuts. -/

/-- Generic three-way comparison on a linear order (the shape of `sortV`,
`compareLower` and `compareUpper` results). -/
def cmp3 {α : Type} [LinearOrder α] (x y : α) : Int :=
  if x < y then -1 else if y < x then 1 else 0

/-- The linear order of positions between versions. -/
abbrev Cut (V : Type) := WithBot (WithTop (Lex (V × Bool)))

/-- The position at version `v`: just after it if `after`, just before it
otherwise. -/
def cutMid (v : V) (after : Bool) : Cut V :=
  (((toLex (v, after) : Lex (V × Bool)) : WithTop (Lex (V × Bool))) : Cut V)

/-- The cut denoted by a lower bound. -/
def LC : versionBound V → Cut V
  | .negInf => ⊥
  | .posInf => ⊤
  | .finite v i => cutMid v (!i)

/-- The cut denoted by an upper bound. -/
def UC : versionBound V → Cut V
  | .negInf => ⊥
  | .posInf => ⊤
  | .finite v i => cutMid v i

/-- A cut lies inside an interval (half-open semantics on cuts). -/
def covIn (iv : versionInterval V) (c : Cut V) : Prop :=
  LC iv.lower ≤ c ∧ c < UC iv.upper

/-- A cut lies inside some interval of the list. -/
def cov (s : VSet V) (c : Cut V) : Prop :=
  ∃ iv ∈ s, covIn iv c

/-- All intervals of the list are non-empty. -/
def NonEmptyIvs (s : VSet V) : Prop :=
  ∀ iv ∈ s, iv.isEmpty = false

/-- The code-level gap relation between consecutive normalized intervals. -/
def gapTo (a b : versionInterval V) : Prop :=
  upperLessThanLower a.upper b.lower = true

/-- The normal form maintained by `normalizeIntervals`: non-empty intervals
with a code-level gap between any two of them (in order). -/
def Normalized (s : VSet V) : Prop :=
  NonEmptyIvs s ∧ s.Pairwise gapTo

/-- The cut-level gap relation: the first interval ends no later than the
second starts. -/
def cutGap (a b : versionInterval V) : Prop :=
  UC a.upper ≤ LC b.lower

/-- The cut-level strict gap relation: some position lies strictly between
the two intervals. -/
def strictGap (a b : versionInterval V) : Prop :=
  UC a.upper < LC b.lower

/-- Sorted lower bounds, at the cut level. -/
def lowCutLE (a b : versionInterval V) : Prop :=
  LC a.lower ≤ LC b.lower

/-- Strict separation: non-empty intervals with some position strictly
between any two.  Complements and intersections produce strictly separated
lists. -/
def StrictSep (s : VSet V) : Prop :=
  NonEmptyIvs s ∧ s.Pairwise strictGap

/-- Each element doubled in place (what sorting `s ++ s` yields for a
normalized `s`). -/
def dupEach : List (versionInterval V) → List (versionInterval V)
  | [] => []
  | a :: l => a :: a :: dupEach l

/-- The observable normal form of a `VersionIntervalSet`: non-empty
intervals, strictly ascending lower bounds, pairwise disjoint (`overlaps`
false), and no two touching intervals (`touches` false, the code's
relation). -/
def NormalProps (s : VSet V) : Prop :=
  (∀ iv ∈ s, iv.isEmpty = false) ∧
  List.Pairwise (fun a b : versionInterval V => compareLower a.lower b.lower < 0) s ∧
  List.Pairwise (fun a b : versionInterval V => a.overlaps b = false) s ∧
  List.Pairwise (fun a b : versionInterval V => a.touches b = false) s

instance : DecidableRel (gapTo (V := V)) :=
  fun _ _ => inferInstanceAs (Decidable (_ = _))

instance : DecidableRel (strictGap (V := V)) :=
  fun _ _ => inferInstanceAs (Decidable (_ < _))

instance (s : VSet V) : Decidable (Normalized s) :=
  decidable_of_iff ((∀ iv ∈ s, iv.isEmpty = false) ∧ s.Pairwise (gapTo (V := V))) Iff.rfl

instance (s : VSet V) : Decidable (StrictSep s) :=
  decidable_of_iff ((∀ iv ∈ s, iv.isEmpty = false) ∧ s.Pairwise (strictGap (V := V))) Iff.rfl

/-! ## Conditions and terms (`Term`, `term_utils.go`)

Package names (`Name`, interned strings in Go) are modelled as `String`.
A Go `Condition` interface value is `Option (Cond V)` (`none` is the `nil`
interface); the pointer conditions with `nil` receivers or `nil` sets
behave like their "full" cases and are folded into the `Option` fields. -/

inductive Cond (V : Type) where
  | equals (version : Option V) : Cond V
  | vset (set : Option (VSet V)) : Cond V
  | custom (satisfies : V → Bool) : Cond V

/-- Model of `Condition.Satisfies` for the three condition shapes.
`EqualsCondition` compares the versions (the Go code compares their
strings, which agree for order-respecting version renderings); a `nil`
version never arises from the library. `VersionSetCondition` with a `nil`
set accepts everything. -/
def condSatisfies : Cond V → V → Bool
  | .equals none, _ => false
  | .equals (some w), v => sortV w v = 0
  | .vset none, _ => true
  | .vset (some s), v => vsContains s v
  | .custom f, v => f v

structure Term (V : Type) where
  name : String
  condition : Option (Cond V)
  positive : Bool

/-- Model of `NewTerm`. -/
def NewTerm (name : String) (condition : Option (Cond V)) : Term V :=
  ⟨name, condition, true⟩

/-- Model of `NewNegativeTerm`. -/
def NewNegativeTerm (name : String) (condition : Option (Cond V)) : Term V :=
  ⟨name, condition, false⟩

/-- Model of `Term.Negate`. -/
def Term.negate (t : Term V) : Term V :=
  ⟨t.name, t.condition, !t.positive⟩

/-- Model of `Term.SatisfiedBy`: a `nil` version means the package is not
selected. -/
def Term.satisfiedBy (t : Term V) (ver : Option V) : Bool :=
  match ver with
  | none => !t.positive
  | some v =>
    match t.condition with
    | none => t.positive
    | some c =>
      let satisfied := condSatisfies c v
      if t.positive then satisfied else !satisfied

/-- Model of `termAllowedSet` (the `*EqualsCondition` / `*VersionSetCondition`
nil-pointer cases coincide with the `nil`-set and `nil`-condition cases). -/
def termAllowedSet (t : Term V) : Option (VSet V) :=
  if !t.positive then none
  else
    match t.condition with
    | none => some (fullSet V)
    | some (.equals v) => some (singletonSet v)
    | some (.vset none) => some (fullSet V)
    | some (.vset (some s)) => some s
    | some (.custom _) => none

/-- Model of `termForbiddenSet`. -/
def termForbiddenSet (t : Term V) : Option (VSet V) :=
  if t.positive then none
  else
    match t.condition with
    | none => some (fullSet V)
    | some (.equals v) => some (singletonSet v)
    | some (.vset none) => some (fullSet V)
    | some (.vset (some s)) => some s
    | some (.custom _) => none

/-- Model of `applyTermToAllowed` (`current` is never `nil` in the model,
matching `allowedSet`, which always returns a set). -/
def applyTermToAllowed (current : VSet V) (t : Term V) : Option (VSet V) :=
  if t.positive then
    (termAllowedSet t).map (fun allowed => vsInter current allowed)
  else
    (termForbiddenSet t).map (fun forbidden => vsInter current (vsCompl forbidden))

/-- Model of `termFromAllowedSet` (the set is never `nil` in the model). -/
def termFromAllowedSet (name : String) (s : VSet V) : Term V :=
  match singletonVersionFromSet s with
  | some version => ⟨name, some (.equals (some version)), true⟩
  | none => ⟨name, some (.vset (some s)), true⟩

/-- Model of `termFromForbiddenSet`. -/
def termFromForbiddenSet (name : String) (s : VSet V) : Term V :=
  ⟨name, some (.vset (some s)), false⟩

/-- Model of `setsEqual` on non-`nil` sets. -/
def setsEqual (a b : VSet V) : Bool :=
  vsIsSubset a b && vsIsSubset b a

/-! ## Incompatibilities (`incompatibility.go`) -/

inductive IncompKind where
  | noVersions : IncompKind
  | fromDependency : IncompKind
  | conflict : IncompKind
deriving DecidableEq

/-- Model of `Incompatibility` (`Cause1`/`Cause2` are `nil`-able pointers,
`Package` and `Version` are the zero values except for dependency
incompatibilities). -/
inductive Incomp (V : Type) where
  | mk (terms : List (Term V)) (kind : IncompKind)
       (cause1 cause2 : Option (Incomp V)) (pkg : String) (version : Option V) : Incomp V

def Incomp.terms : Incomp V → List (Term V)
  | .mk t _ _ _ _ _ => t

def Incomp.kind : Incomp V → IncompKind
  | .mk _ k _ _ _ _ => k

def Incomp.cause1 : Incomp V → Option (Incomp V)
  | .mk _ _ c _ _ _ => c

def Incomp.cause2 : Incomp V → Option (Incomp V)
  | .mk _ _ _ c _ _ => c

/-- Model of `NewIncompatibilityNoVersions`. -/
def NewIncompatibilityNoVersions (term : Term V) : Incomp V :=
  .mk [term] .noVersions none none "" none

/-- Model of `NewIncompatibilityFromDependency`. -/
def NewIncompatibilityFromDependency (pkg : String) (ver : Option V) (dependency : Term V) :
    Incomp V :=
  .mk [NewTerm pkg (some (.equals ver)), dependency.negate] .fromDependency none none pkg ver

/-- The name-deduplication loop of `NewIncompatibilityConflict`, with the
`seen` map as a list of names. -/
def dedupTermsByName (seen : List String) : List (Term V) → List (Term V)
  | [] => []
  | t :: rest =>
    if t.name ∈ seen then dedupTermsByName seen rest
    else t :: dedupTermsByName (t.name :: seen) rest

/-- Model of `NewIncompatibilityConflict`. -/
def NewIncompatibilityConflict (terms : List (Term V)) (cause1 cause2 : Option (Incomp V)) :
    Incomp V :=
  .mk (dedupTermsByName [] terms) .conflict cause1 cause2 "" none

/-! ## `relationForTerm` (solver state source file) -/

inductive IncompRel where
  | satisfied : IncompRel
  | almostSatisfied : IncompRel
  | contradicted : IncompRel
  | inconclusive : IncompRel
deriving DecidableEq

/-- Model of `relationForTerm` (its Go error result is always `nil`). -/
def relationForTerm (term : Term V) (allowed : Option (VSet V)) (hasAssignment : Bool) :
    IncompRel :=
  let allowed := match allowed with
    | none => fullSet V
    | some s => s
  if term.positive then
    match termAllowedSet term with
    | none => .inconclusive
    | some required =>
      if vsIsSubset allowed required then
        if hasAssignment then .satisfied else .inconclusive
      else if vsIsDisjoint allowed required then .contradicted
      else .inconclusive
  else
    match termForbiddenSet term with
    | none => .inconclusive
    | some forbidden =>
      if vsIsDisjoint allowed forbidden then .satisfied
      else if vsIsSubset allowed forbidden then
        if hasAssignment then .contradicted else .inconclusive
      else .inconclusive

/-! ## `mergeTerms` and `resolveIncompatibility` -/

/-- Model of `mergeTerms`. -/
def mergeTerms (a b : Term V) : Option (Term V) :=
  if a.name ≠ b.name then none
  else if a.positive && b.positive then
    match termAllowedSet a, termAllowedSet b with
    | some setA, some setB => some (termFromAllowedSet a.name (vsInter setA setB))
    | _, _ => none
  else if !a.positive && !b.positive then
    match termForbiddenSet a, termForbiddenSet b with
    | some forbA, some forbB => some (termFromForbiddenSet a.name (vsUnion forbA forbB))
    | _, _ => none
  else none

/-- Association-list model of the Go `map[Name]Term` (assignment overwrites). -/
def assocInsert (m : List (String × Term V)) (key : String) (t : Term V) :
    List (String × Term V) :=
  if m.any (fun p => p.1 = key) then
    m.map (fun p => if p.1 = key then (key, t) else p)
  else m ++ [(key, t)]

def assocFind (m : List (String × Term V)) (key : String) : Option (Term V) :=
  (m.find? (fun p => p.1 = key)).map Prod.snd

def assocErase (m : List (String × Term V)) (key : String) : List (String × Term V) :=
  m.filter (fun p => p.1 ≠ key)

/-- One step of the ordered collection passes of `resolveIncompatibility`:
take the term stored for this name (if still present) and delete it. -/
def collectStep (pkg : String) (acc : List (Term V) × List (String × Term V)) (term : Term V) :
    List (Term V) × List (String × Term V) :=
  if term.name = pkg then acc
  else
    match assocFind acc.2 term.name with
    | some t => (acc.1 ++ [t], assocErase acc.2 term.name)
    | none => acc

/-- Model of `resolveIncompatibility`: drop the pivot package's terms, merge
terms per package (map semantics), then collect in the deterministic
conflict-then-cause order. -/
def resolveIncompatibility (conflict cause : Incomp V) (pkg : String) : Incomp V :=
  let m0 := conflict.terms.foldl
    (fun m term => if term.name = pkg then m else assocInsert m term.name term) []
  let m1 := cause.terms.foldl
    (fun m term =>
      if term.name = pkg then m
      else
        match assocFind m term.name with
        | some existing =>
          match mergeTerms existing term with
          | some merged => assocInsert m term.name merged
          | none => assocInsert m term.name term
        | none => assocInsert m term.name term) m0
  let acc1 := conflict.terms.foldl (collectStep pkg) ([], m1)
  let acc2 := cause.terms.foldl (collectStep pkg) acc1
  NewIncompatibilityConflict acc2.1 (some conflict) (some cause)

/-! ## Assignments and the partial solution (`partial_solution.go`, the
assignment source file) -/

inductive AssignKind where
  | decision : AssignKind
  | derivation : AssignKind
deriving DecidableEq

structure Assignment (V : Type) where
  name : String
  term : Term V
  kind : AssignKind
  allowed : Option (VSet V)
  forbidden : Option (VSet V)
  version : Option V
  cause : Option (Incomp V)
  decisionLevel : Int
  index : Nat

def Assignment.isDecision (a : Assignment V) : Bool :=
  a.kind = AssignKind.decision

/-- Model of `partialSolution`.  The Go `perPackage` map is a function
(reading an absent key yields the empty stack; deleting an entry is setting
it to the empty stack, which is observationally identical). -/
structure PartSol (V : Type) where
  assignments : List (Assignment V)
  perPackage : String → List (Assignment V)
  decisionLvl : Int
  nextIndex : Nat
  root : String

/-- Model of `newPartialSolution`. -/
def newPartialSolution (root : String) : PartSol V :=
  ⟨[], fun _ => [], 0, 0, root⟩

/-- Model of `newDecisionAssignment`. -/
def newDecisionAssignment (ps : PartSol V) (name : String) (version : Option V)
    (level : Int) : Assignment V :=
  { name := name
    term := NewTerm name (some (.equals version))
    kind := .decision
    allowed := some (singletonSet version)
    forbidden := none
    version := version
    cause := none
    decisionLevel := level
    index := ps.nextIndex }

/-- Model of `partialSolution.append`. -/
def PartSol.appendAssign (ps : PartSol V) (assign : Assignment V) : PartSol V :=
  { ps with
    assignments := ps.assignments ++ [assign]
    perPackage := fun n =>
      if n = assign.name then ps.perPackage assign.name ++ [assign] else ps.perPackage n
    nextIndex := ps.nextIndex + 1 }

/-- Model of `partialSolution.latest`. -/
def PartSol.latest (ps : PartSol V) (name : String) : Option (Assignment V) :=
  (ps.perPackage name).getLast?

/-- The intersection fold of `allowedSet` over one package's stack. -/
def versionSetFold (stack : List (Assignment V)) : VSet V :=
  stack.foldl
    (fun current assign =>
      if assign.term.positive then
        match assign.allowed with
        | some allowed => vsInter current allowed
        | none => current
      else
        match assign.forbidden with
        | some forbidden => vsInter current (vsCompl forbidden)
        | none => current)
    (fullSet V)

/-- Model of `partialSolution.allowedSet`. -/
def PartSol.allowedSet (ps : PartSol V) (name : String) : VSet V :=
  let stack := ps.perPackage name
  if stack.isEmpty then fullSet V else versionSetFold stack

/-- Model of `partialSolution.hasAssignments`. -/
def PartSol.hasAssignments (ps : PartSol V) (name : String) : Bool :=
  !(ps.perPackage name).isEmpty

/-- Model of `partialSolution.addDecision` (returns the assignment and the
updated solution). -/
def PartSol.addDecision (ps : PartSol V) (name : String) (version : Option V) :
    Assignment V × PartSol V :=
  let ps1 : PartSol V := { ps with decisionLvl := ps.decisionLvl + 1 }
  let assign := newDecisionAssignment ps1 name version ps1.decisionLvl
  (assign, ps1.appendAssign assign)

/-- Model of `partialSolution.seedRoot`. -/
def PartSol.seedRoot (ps : PartSol V) (name : String) (version : Option V) :
    Assignment V × PartSol V :=
  let assign := newDecisionAssignment ps name version 0
  (assign, ps.appendAssign assign)

inductive DerivErr where
  | noAllowedVersions : DerivErr
  | conversionFailed : DerivErr
deriving DecidableEq

/-- The `(assignment, changed, error)` result of `addDerivation` together
with the(possibly unchanged) solution state. -/
structure DerivResult (V : Type) where
  ps : PartSol V
  assign : Option (Assignment V)
  changed : Bool
  err : Option DerivErr

/-- Model of `partialSolution.addDerivation`.  The Go method returns the
error before mutating the receiver, so the error cases carry `ps`
unchanged. -/
def PartSol.addDerivation (ps : PartSol V) (term : Term V) (cause : Option (Incomp V)) :
    DerivResult V :=
  let currentAllowed := ps.allowedSet term.name
  match applyTermToAllowed currentAllowed term with
  | none => ⟨ps, none, false, some .conversionFailed⟩
  | some newAllowed =>
    if vsIsEmpty newAllowed then ⟨ps, none, false, some .noAllowedVersions⟩
    else
      let changed := !setsEqual currentAllowed newAllowed
      if term.positive then
        let assign : Assignment V :=
          { name := term.name, term := term, kind := .derivation,
            allowed := some newAllowed, forbidden := none, version := none,
            cause := cause, decisionLevel := ps.decisionLvl, index := ps.nextIndex }
        let ps1 := ps.appendAssign assign
        ⟨ps1, some assign, changed, none⟩
      else
        match termForbiddenSet term with
        | none => ⟨ps, none, false, some .conversionFailed⟩
        | some forbidden =>
          let assign : Assignment V :=
            { name := term.name, term := term, kind := .derivation,
              allowed := none, forbidden := some forbidden, version := none,
              cause := cause, decisionLevel := ps.decisionLvl, index := ps.nextIndex }
          let ps1 := ps.appendAssign assign
          if changed then
            let tightening : Assignment V :=
              { name := term.name, term := termFromAllowedSet term.name newAllowed,
                kind := .derivation, allowed := some newAllowed, forbidden := none,
                version := none, cause := cause, decisionLevel := ps1.decisionLvl,
                index := ps1.nextIndex }
            ⟨ps1.appendAssign tightening, some tightening, true, none⟩
          else ⟨ps1, some assign, changed, none⟩

/-- The pop step of `backtrack`: drop the last assignment from the log and
from its package's stack. -/
def PartSol.popLast (ps : PartSol V) : PartSol V :=
  match ps.assignments.getLast? with
  | none => ps
  | some last =>
    { ps with
      assignments := ps.assignments.dropLast
      perPackage := fun n =>
        if n = last.name then (ps.perPackage last.name).dropLast else ps.perPackage n }

/-- The popping loop of `backtrack`. -/
def backtrackLoop (ps : PartSol V) (level : Int) : PartSol V :=
  match h : ps.assignments.getLast? with
  | none => ps
  | some last =>
    if last.decisionLevel ≤ level then ps
    else backtrackLoop ps.popLast level
termination_by ps.assignments.length
decreasing_by
  unfold PartSol.popLast
  rw [h]
  have hne : ps.assignments ≠ [] := by
    intro he
    rw [he] at h
    exact absurd h (by simp)
  simp only [List.length_dropLast]
  have := List.length_pos.mpr hne
  omega

/-- Model of `partialSolution.backtrack`. -/
def PartSol.backtrack (ps : PartSol V) (level : Int) : PartSol V :=
  let lvl := if level < 0 then 0 else level
  let ps1 := backtrackLoop ps lvl
  { ps1 with decisionLvl := lvl }

/-- The loop of `buildSolution`, with the `seen` map as a list of names. -/
def buildSolutionAux (seen : List String) : List (Assignment V) → List (String × Option V)
  | [] => []
  | a :: rest =>
    if a.kind ≠ .decision then buildSolutionAux seen rest
    else if a.name ∈ seen then buildSolutionAux seen rest
    else (a.name, a.version) :: buildSolutionAux (a.name :: seen) rest

/-- Model of `partialSolution.buildSolution` (a `Solution` is its list of
`NameVersion` pairs). -/
def PartSol.buildSolution (ps : PartSol V) : List (String × Option V) :=
  buildSolutionAux [] ps.assignments

/-! ## The solver decision path (`pickVersion`, `Solver.Solve`) -/

inductive SourceErr where
  | pkgNotFound : SourceErr
  | pkgVersionNotFound : SourceErr
  | other (msg : String) : SourceErr
deriving DecidableEq

inductive PickResult (V : Type) where
  | fatal (e : SourceErr) : PickResult V
  | notFound : PickResult V
  | found (v : V) : PickResult V
deriving DecidableEq

/-- Model of `solverState.pickVersion`; `versionsResult` is the catalog's
`GetVersions` response, and the descending scan is a find over the reversed
list. -/
def pickVersion (allowed : Option (VSet V)) (versionsResult : Except SourceErr (List V)) :
    PickResult V :=
  match allowed with
  | none => .notFound
  | some s =>
    if vsIsEmpty s then .notFound
    else
      match versionsResult with
      | .error e =>
        match e with
        | .pkgNotFound => .notFound
        | .pkgVersionNotFound => .notFound
        | .other msg => .fatal (.other msg)
      | .ok versions =>
        match versions.reverse.find? (fun v => vsContains s v) with
        | some v => .found v
        | none => .notFound

inductive DecideOutcome (V : Type) where
  | fatalErr (e : SourceErr) : DecideOutcome V
  | conflict (inc : Incomp V) : DecideOutcome V
  | decide (v : V) : DecideOutcome V

/-- Model of the `!found` fabrication in `Solver.Solve`: a `NoVersions`
incompatibility for the package's current allowed set, resolved once
against the latest assignment's cause when present. -/
def fabricateNoVersions (ps : PartSol V) (nextPkg : String) : Incomp V :=
  let allowed := ps.allowedSet nextPkg
  let conflict := NewIncompatibilityNoVersions (termFromAllowedSet nextPkg allowed)
  match ps.latest nextPkg with
  | some support =>
    match support.cause with
    | some cz => resolveIncompatibility conflict cz nextPkg
    | none => conflict
  | none => conflict

/-- Model of the decision step of `Solver.Solve` around `pickVersion`
(lines choosing a version or fabricating a conflict). -/
def decisionStep (ps : PartSol V) (nextPkg : String)
    (versionsResult : Except SourceErr (List V)) : DecideOutcome V :=
  match pickVersion (some (ps.allowedSet nextPkg)) versionsResult with
  | .fatal e => .fatalErr e
  | .notFound => .conflict (fabricateNoVersions ps nextPkg)
  | .found v => .decide v

/-- A small concrete partial solution over integer versions used in
examples: the root decision at level 0 and two package decisions at levels
1 and 2. -/
def examplePS : PartSol Int :=
  (((((newPartialSolution "$$root").seedRoot "$$root" (some 0)).2).addDecision
    "a" (some 1)).2.addDecision "b" (some 2)).2

end PubGrubGo

namespace PubGrubGo

variable {V : Type} [LinearOrder V]

/-! ## Theorems: three-way comparisons -/

theorem cmp3_neg_iff {α : Type} [LinearOrder α] {x y : α} : cmp3 x y < 0 ↔ x < y := by
  unfold cmp3
  rcases lt_trichotomy x y with h | h | h
  · simp [h]
  · simp [h, lt_irrefl]
  · simp [not_lt_of_gt h, h, lt_asymm h]

theorem cmp3_eq_zero_iff {α : Type} [LinearOrder α] {x y : α} : cmp3 x y = 0 ↔ x = y := by
  unfold cmp3
  rcases lt_trichotomy x y with h | h | h
  · simp [h, ne_of_lt h]
  · simp [h, lt_irrefl]
  · simp [not_lt_of_gt h, h, (ne_of_lt h).symm, lt_asymm h]

theorem cmp3_pos_iff {α : Type} [LinearOrder α] {x y : α} : 0 < cmp3 x y ↔ y < x := by
  unfold cmp3
  rcases lt_trichotomy x y with h | h | h
  · simp [h, lt_asymm h]
  · simp [h, lt_irrefl]
  · simp [not_lt_of_gt h, h]

theorem cmp3_nonpos_iff {α : Type} [LinearOrder α] {x y : α} : cmp3 x y ≤ 0 ↔ x ≤ y := by
  rw [le_iff_lt_or_eq (b := y)]
  constructor
  · intro h
    rcases lt_or_eq_of_le h with h' | h'
    · exact Or.inl (cmp3_neg_iff.mp h')
    · exact Or.inr (cmp3_eq_zero_iff.mp h')
  · rintro (h | h)
    · exact le_of_lt (cmp3_neg_iff.mpr h)
    · exact le_of_eq (cmp3_eq_zero_iff.mpr h)

theorem cmp3_nonneg_iff {α : Type} [LinearOrder α] {x y : α} : 0 ≤ cmp3 x y ↔ y ≤ x := by
  constructor
  · intro h
    rcases lt_or_eq_of_le h with h' | h'
    · exact le_of_lt (cmp3_pos_iff.mp h')
    · exact (cmp3_eq_zero_iff.mp h'.symm).ge
  · intro h
    rcases lt_or_eq_of_le h with h' | h'
    · exact le_of_lt (cmp3_pos_iff.mpr h')
    · exact (cmp3_eq_zero_iff.mpr h'.symm).ge

theorem cmp3_of_lt {α : Type} [LinearOrder α] {x y : α} (h : x < y) : cmp3 x y = -1 := by
  unfold cmp3
  simp [h]

theorem cmp3_of_eq {α : Type} [LinearOrder α] {x y : α} (h : x = y) : cmp3 x y = 0 := by
  unfold cmp3
  simp [h, lt_irrefl]

theorem cmp3_of_gt {α : Type} [LinearOrder α] {x y : α} (h : y < x) : cmp3 x y = 1 := by
  unfold cmp3
  simp [not_lt_of_gt h, h]

theorem sortV_eq_cmp3 (a b : V) : sortV a b = cmp3 a b := rfl

/-! ## Theorems: cut order basics -/

theorem cutMid_lt_iff {v w : V} {a b : Bool} :
    cutMid v a < cutMid w b ↔ v < w ∨ (v = w ∧ a = false ∧ b = true) := by
  unfold cutMid
  rw [WithBot.coe_lt_coe, WithTop.coe_lt_coe, Prod.Lex.lt_iff]
  simp [Bool.lt_iff]

theorem cutMid_le_iff {v w : V} {a b : Bool} :
    cutMid v a ≤ cutMid w b ↔ v < w ∨ (v = w ∧ (a = true → b = true)) := by
  unfold cutMid
  rw [WithBot.coe_le_coe, WithTop.coe_le_coe, Prod.Lex.le_iff]
  constructor
  · rintro (h | ⟨h1, h2⟩)
    · exact Or.inl h
    · exact Or.inr ⟨h1, by revert h2; cases a <;> cases b <;> simp⟩
  · rintro (h | ⟨h1, h2⟩)
    · exact Or.inl h
    · exact Or.inr ⟨h1, by revert h2; cases a <;> cases b <;> simp⟩

theorem cutMid_eq_iff {v w : V} {a b : Bool} :
    cutMid v a = cutMid w b ↔ v = w ∧ a = b := by
  unfold cutMid
  constructor
  · intro h
    have h1 := WithTop.coe_injective (WithBot.coe_injective h)
    have h2 : ((v, a) : V × Bool) = (w, b) := congrArg ofLex h1
    exact ⟨congrArg Prod.fst h2, congrArg Prod.snd h2⟩
  · rintro ⟨rfl, rfl⟩
    rfl

theorem bot_lt_cutMid {v : V} {a : Bool} : (⊥ : Cut V) < cutMid v a :=
  WithBot.bot_lt_coe _

theorem cutMid_lt_top {v : V} {a : Bool} : cutMid v a < (⊤ : Cut V) := by
  unfold cutMid
  exact WithBot.coe_lt_coe.mpr (WithTop.coe_lt_top _)

theorem bot_lt_top_cut : (⊥ : Cut V) < (⊤ : Cut V) :=
  WithBot.bot_lt_coe _

/-! ## Theorems: the Go comparators compute the cut order -/

theorem compareLower_eq (a b : versionBound V) :
    compareLower a b = cmp3 (LC a) (LC b) := by
  cases a with
  | negInf =>
    cases b with
    | negInf => simp [compareLower, LC, cmp3, lt_irrefl]
    | finite w j =>
      simp [compareLower, LC, cmp3, bot_lt_cutMid, not_lt_of_gt bot_lt_cutMid]
    | posInf =>
      simp [compareLower, LC, cmp3, bot_lt_top_cut, not_lt_of_gt bot_lt_top_cut]
  | posInf =>
    cases b with
    | negInf => simp [compareLower, LC, cmp3, bot_lt_top_cut, not_lt_of_gt bot_lt_top_cut]
    | finite w j => simp [compareLower, LC, cmp3, cutMid_lt_top, not_lt_of_gt cutMid_lt_top]
    | posInf => simp [compareLower, LC, cmp3, lt_irrefl]
  | finite v i =>
    cases b with
    | negInf => simp [compareLower, LC, cmp3, bot_lt_cutMid, not_lt_of_gt bot_lt_cutMid]
    | posInf => simp [compareLower, LC, cmp3, cutMid_lt_top, not_lt_of_gt cutMid_lt_top]
    | finite w j =>
      show (let c := sortV v w
        if c ≠ 0 then c else if i = j then 0 else if i then -1 else 1) =
        cmp3 (cutMid v (!i)) (cutMid w (!j))
      rw [sortV_eq_cmp3]
      rcases lt_trichotomy v w with h | h | h
      · have hlt : cutMid v (!i) < cutMid w (!j) := cutMid_lt_iff.mpr (Or.inl h)
        rw [cmp3_of_lt hlt]
        simp only [cmp3_of_lt h]
        norm_num
      · subst h
        rw [cmp3_of_eq rfl]
        have hba : cutMid v false < cutMid v true :=
          cutMid_lt_iff.mpr (Or.inr ⟨rfl, rfl, rfl⟩)
        cases i <;> cases j
        · simp [cmp3_of_eq]
        · simp [cmp3_of_gt hba]
        · simp [cmp3_of_lt hba]
        · simp [cmp3_of_eq]
      · have hgt : cutMid w (!j) < cutMid v (!i) := cutMid_lt_iff.mpr (Or.inl h)
        rw [cmp3_of_gt hgt]
        simp only [cmp3_of_gt h]
        norm_num

theorem compareUpper_eq (a b : versionBound V) :
    compareUpper a b = cmp3 (UC a) (UC b) := by
  cases a with
  | negInf =>
    cases b with
    | negInf => simp [compareUpper, UC, cmp3, lt_irrefl]
    | finite w j =>
      simp [compareUpper, UC, cmp3, bot_lt_cutMid, not_lt_of_gt bot_lt_cutMid]
    | posInf =>
      simp [compareUpper, UC, cmp3, bot_lt_top_cut, not_lt_of_gt bot_lt_top_cut]
  | posInf =>
    cases b with
    | negInf => simp [compareUpper, UC, cmp3, bot_lt_top_cut, not_lt_of_gt bot_lt_top_cut]
    | finite w j => simp [compareUpper, UC, cmp3, cutMid_lt_top, not_lt_of_gt cutMid_lt_top]
    | posInf => simp [compareUpper, UC, cmp3, lt_irrefl]
  | finite v i =>
    cases b with
    | negInf => simp [compareUpper, UC, cmp3, bot_lt_cutMid, not_lt_of_gt bot_lt_cutMid]
    | posInf => simp [compareUpper, UC, cmp3, cutMid_lt_top, not_lt_of_gt cutMid_lt_top]
    | finite w j =>
      show (let c := sortV v w
        if c ≠ 0 then c else if i = j then 0 else if i then 1 else -1) =
        cmp3 (cutMid v i) (cutMid w j)
      rw [sortV_eq_cmp3]
      rcases lt_trichotomy v w with h | h | h
      · have hlt : cutMid v i < cutMid w j := cutMid_lt_iff.mpr (Or.inl h)
        rw [cmp3_of_lt hlt]
        simp only [cmp3_of_lt h]
        norm_num
      · subst h
        rw [cmp3_of_eq rfl]
        have hba : cutMid v false < cutMid v true :=
          cutMid_lt_iff.mpr (Or.inr ⟨rfl, rfl, rfl⟩)
        cases i <;> cases j
        · simp [cmp3_of_eq]
        · simp [cmp3_of_lt hba]
        · simp [cmp3_of_gt hba]
        · simp [cmp3_of_eq]
      · have hgt : cutMid w j < cutMid v i := cutMid_lt_iff.mpr (Or.inl h)
        rw [cmp3_of_gt hgt]
        simp only [cmp3_of_gt h]
        norm_num

theorem compareLower_neg_iff {a b : versionBound V} :
    compareLower a b < 0 ↔ LC a < LC b := by
  rw [compareLower_eq, cmp3_neg_iff]

theorem compareLower_nonpos_iff {a b : versionBound V} :
    compareLower a b ≤ 0 ↔ LC a ≤ LC b := by
  rw [compareLower_eq, cmp3_nonpos_iff]

theorem compareLower_pos_iff {a b : versionBound V} :
    0 < compareLower a b ↔ LC b < LC a := by
  rw [compareLower_eq, cmp3_pos_iff]

theorem compareLower_nonneg_iff {a b : versionBound V} :
    0 ≤ compareLower a b ↔ LC b ≤ LC a := by
  rw [compareLower_eq, cmp3_nonneg_iff]

theorem compareUpper_neg_iff {a b : versionBound V} :
    compareUpper a b < 0 ↔ UC a < UC b := by
  rw [compareUpper_eq, cmp3_neg_iff]

theorem compareUpper_nonpos_iff {a b : versionBound V} :
    compareUpper a b ≤ 0 ↔ UC a ≤ UC b := by
  rw [compareUpper_eq, cmp3_nonpos_iff]

theorem compareUpper_pos_iff {a b : versionBound V} :
    0 < compareUpper a b ↔ UC b < UC a := by
  rw [compareUpper_eq, cmp3_pos_iff]

theorem compareUpper_nonneg_iff {a b : versionBound V} :
    0 ≤ compareUpper a b ↔ UC b ≤ UC a := by
  rw [compareUpper_eq, cmp3_nonneg_iff]

theorem lowerLE_iff {a b : versionInterval V} :
    lowerLE a b ↔ LC a.lower ≤ LC b.lower := by
  unfold lowerLE
  exact compareLower_nonpos_iff

/-! ## Theorems: emptiness, containment, gaps in cut terms -/

theorem isEmpty_eq_false_iff {iv : versionInterval V} :
    iv.isEmpty = false ↔ LC iv.lower < UC iv.upper := by
  obtain ⟨l, u⟩ := iv
  cases l with
  | posInf =>
    cases u <;> simp [versionInterval.isEmpty, LC, UC, not_top_lt, not_lt_of_gt bot_lt_top_cut,
      not_lt_of_gt cutMid_lt_top]
  | negInf =>
    cases u with
    | negInf => simp [versionInterval.isEmpty, LC, UC, lt_irrefl]
    | posInf => simp [versionInterval.isEmpty, LC, UC, bot_lt_top_cut]
    | finite uv ui => simp [versionInterval.isEmpty, LC, UC, bot_lt_cutMid]
  | finite lv li =>
    cases u with
    | negInf =>
      simp [versionInterval.isEmpty, LC, UC, not_lt_of_gt bot_lt_cutMid]
    | posInf => simp [versionInterval.isEmpty, LC, UC, cutMid_lt_top]
    | finite uv ui =>
      show (let c := sortV lv uv
        if c < 0 then false else if c > 0 then true else !li || !ui) = false ↔ _
      rw [sortV_eq_cmp3]
      simp only [LC, UC]
      rcases lt_trichotomy lv uv with h | h | h
      · rw [cmp3_of_lt h]
        simp [cutMid_lt_iff.mpr (Or.inl h)]
      · subst h
        rw [cmp3_of_eq rfl]
        cases li <;> cases ui <;> simp [cutMid_lt_iff, lt_irrefl]
      · rw [cmp3_of_gt h]
        have hn : ¬cutMid lv (!li) < cutMid uv ui := by
          intro hc
          rcases cutMid_lt_iff.mp hc with h' | ⟨h', _⟩
          · exact absurd h' (not_lt_of_gt h)
          · exact absurd h' (ne_of_gt h)
        simp [hn]

theorem isEmpty_eq_true_iff {iv : versionInterval V} :
    iv.isEmpty = true ↔ ¬(LC iv.lower < UC iv.upper) := by
  rw [← isEmpty_eq_false_iff]
  cases h : iv.isEmpty <;> simp [h]

theorem newInterval_eq_some_iff {l u : versionBound V} {iv : versionInterval V} :
    newInterval l u = some iv ↔ LC l < UC u ∧ iv = ⟨l, u⟩ := by
  unfold newInterval
  by_cases h : (⟨l, u⟩ : versionInterval V).isEmpty
  · rw [if_pos h]
    rw [isEmpty_eq_true_iff] at h
    constructor
    · intro hc
      simp at hc
    · rintro ⟨hc, _⟩
      exact absurd hc h
  · rw [if_neg h]
    rw [Bool.not_eq_true, isEmpty_eq_false_iff] at h
    constructor
    · intro hc
      exact ⟨h, (Option.some_injective _ hc).symm⟩
    · rintro ⟨_, rfl⟩
      rfl

theorem newInterval_eq_none_iff {l u : versionBound V} :
    newInterval l u = none ↔ ¬(LC l < UC u) := by
  unfold newInterval
  by_cases h : (⟨l, u⟩ : versionInterval V).isEmpty
  · simp [h, isEmpty_eq_true_iff.mp h]
  · simp only [Bool.not_eq_true] at h
    simp [h, isEmpty_eq_false_iff.mp h]

theorem ULL_iff {u l : versionBound V}
    (h1 : ¬(u = .negInf ∧ l = .negInf)) (h2 : ¬(u = .posInf ∧ l = .posInf)) :
    upperLessThanLower u l = true ↔ UC u ≤ LC l := by
  cases u with
  | negInf =>
    cases l with
    | negInf => exact absurd ⟨rfl, rfl⟩ h1
    | finite lv li => simp [upperLessThanLower, UC, LC, bot_le]
    | posInf => simp [upperLessThanLower, UC, LC, bot_le]
  | posInf =>
    cases l with
    | posInf => exact absurd ⟨rfl, rfl⟩ h2
    | negInf =>
      simp [upperLessThanLower, UC, LC, not_le_of_lt bot_lt_top_cut]
    | finite lv li =>
      simp [upperLessThanLower, UC, LC, not_le_of_lt cutMid_lt_top]
  | finite uv ui =>
    cases l with
    | posInf => simp [upperLessThanLower, UC, LC, le_top]
    | negInf =>
      simp [upperLessThanLower, UC, LC, not_le_of_lt bot_lt_cutMid]
    | finite lv li =>
      show (let c := sortV uv lv
        if c < 0 then true else if c > 0 then false else !ui || !li) = true ↔ _
      rw [sortV_eq_cmp3]
      simp only [UC, LC]
      rcases lt_trichotomy uv lv with h | h | h
      · rw [cmp3_of_lt h]
        simp [le_of_lt (cutMid_lt_iff.mpr (Or.inl h))]
      · subst h
        rw [cmp3_of_eq rfl]
        have hba : cutMid uv false < cutMid uv true :=
          cutMid_lt_iff.mpr (Or.inr ⟨rfl, rfl, rfl⟩)
        cases ui <;> cases li <;>
          simp [le_refl, le_of_lt hba, not_le_of_lt hba]
      · rw [cmp3_of_gt h]
        have hn : ¬cutMid uv ui ≤ cutMid lv (!li) := by
          intro hc
          rcases lt_or_eq_of_le hc with h' | h'
          · rcases cutMid_lt_iff.mp h' with h'' | ⟨h'', _⟩
            · exact absurd h'' (not_lt_of_gt h)
            · exact absurd h'' (ne_of_gt h)
          · exact absurd (cutMid_eq_iff.mp h').1 (ne_of_gt h)
        simp [hn]

theorem ULL_iff_of_nonempty {a b : versionInterval V}
    (ha : a.isEmpty = false) (hb : b.isEmpty = false) :
    upperLessThanLower a.upper b.lower = true ↔ UC a.upper ≤ LC b.lower := by
  have hne := isEmpty_eq_false_iff.mp ha
  have hne' := isEmpty_eq_false_iff.mp hb
  apply ULL_iff
  · rintro ⟨h1, _⟩
    rw [h1] at hne
    exact absurd hne (by simp [UC, not_lt_bot])
  · rintro ⟨_, h2⟩
    rw [h2] at hne'
    exact absurd hne' (by simp [LC, not_top_lt])

theorem lowCheck_iff {l : versionBound V} {v : V} :
    versionInterval.lowCheck l v = true ↔ LC l ≤ cutMid v false := by
  cases l with
  | negInf => simp [versionInterval.lowCheck, LC, bot_le]
  | posInf => simp [versionInterval.lowCheck, LC, not_le_of_lt cutMid_lt_top]
  | finite lv li =>
    show (let c := sortV v lv
      if c < 0 then false else if c = 0 && !li then false else true) = true ↔ _
    rw [sortV_eq_cmp3]
    simp only [LC]
    rcases lt_trichotomy v lv with h | h | h
    · rw [cmp3_of_lt h]
      have hn : ¬cutMid lv (!li) ≤ cutMid v false := by
        intro hc
        rcases cutMid_le_iff.mp hc with h' | ⟨h', _⟩
        · exact absurd h' (not_lt_of_gt h)
        · exact absurd h'.symm (ne_of_lt h)
      simp [hn]
    · subst h
      rw [cmp3_of_eq rfl]
      cases li <;> simp [cutMid_le_iff, lt_irrefl]
    · rw [cmp3_of_gt h]
      have hle : cutMid lv (!li) ≤ cutMid v false :=
        le_of_lt (cutMid_lt_iff.mpr (Or.inl h))
      simp [hle]

theorem upCheck_iff {u : versionBound V} {v : V} :
    versionInterval.upCheck u v = true ↔ cutMid v false < UC u := by
  cases u with
  | posInf => simp [versionInterval.upCheck, UC, cutMid_lt_top]
  | negInf => simp [versionInterval.upCheck, UC, not_lt_bot]
  | finite uv ui =>
    show (let c := sortV v uv
      if c > 0 then false else if c = 0 && !ui then false else true) = true ↔ _
    rw [sortV_eq_cmp3]
    simp only [UC]
    rcases lt_trichotomy v uv with h | h | h
    · rw [cmp3_of_lt h]
      have hlt : cutMid v false < cutMid uv ui := cutMid_lt_iff.mpr (Or.inl h)
      simp [hlt]
    · subst h
      rw [cmp3_of_eq rfl]
      cases ui <;> simp [cutMid_lt_iff, lt_irrefl]
    · rw [cmp3_of_gt h]
      have hn : ¬cutMid v false < cutMid uv ui := by
        intro hc
        rcases cutMid_lt_iff.mp hc with h' | ⟨h', _⟩
        · exact absurd h' (not_lt_of_gt h)
        · exact absurd h' (ne_of_gt h)
      simp [hn]

theorem contains_iff {iv : versionInterval V} {v : V} :
    iv.contains v = true ↔ LC iv.lower ≤ cutMid v false ∧ cutMid v false < UC iv.upper := by
  unfold versionInterval.contains
  rw [Bool.and_eq_true, lowCheck_iff, upCheck_iff]

theorem vsContains_iff {s : VSet V} {v : V} :
    vsContains s v = true ↔ cov s (cutMid v false) := by
  unfold vsContains cov covIn
  rw [List.any_eq_true]
  constructor
  · rintro ⟨iv, hm, hc⟩
    exact ⟨iv, hm, contains_iff.mp hc⟩
  · rintro ⟨iv, hm, hc⟩
    exact ⟨iv, hm, contains_iff.mpr hc⟩

/-! ## Theorems: covers, merge, overlaps, complement bounds in cut terms -/

theorem covers_iff {b a : versionInterval V} :
    b.covers a = true ↔ LC b.lower ≤ LC a.lower ∧ UC a.upper ≤ UC b.upper := by
  unfold versionInterval.covers
  split_ifs with h1 h2
  · constructor
    · intro hc
      simp at hc
    · rintro ⟨hc, _⟩
      exact absurd (compareLower_pos_iff.mp h1) (not_lt_of_le hc)
  · constructor
    · intro hc
      simp at hc
    · rintro ⟨_, hc⟩
      exact absurd (compareUpper_neg_iff.mp h2) (not_lt_of_le hc)
  · constructor
    · intro _
      refine ⟨?_, ?_⟩
      · rw [← compareLower_nonpos_iff]
        omega
      · rw [← compareUpper_nonneg_iff]
        omega
    · intro _
      rfl

theorem merge_lower {a b : versionInterval V} :
    LC (a.merge b).lower = min (LC a.lower) (LC b.lower) := by
  show LC (cmin a.lower b.lower compareLower) = _
  unfold cmin
  by_cases h : compareLower a.lower b.lower ≤ 0
  · have h' : LC a.lower ≤ LC b.lower := compareLower_nonpos_iff.mp h
    rw [if_pos h]
    exact (min_eq_left h').symm
  · have h' : LC b.lower ≤ LC a.lower := le_of_lt (by
      rw [← compareLower_pos_iff]
      omega)
    rw [if_neg h]
    exact (min_eq_right h').symm

theorem merge_upper {a b : versionInterval V} :
    UC (a.merge b).upper = max (UC a.upper) (UC b.upper) := by
  show UC (cmax a.upper b.upper compareUpper) = _
  unfold cmax
  by_cases h : compareUpper a.upper b.upper ≥ 0
  · have h' : UC b.upper ≤ UC a.upper := compareUpper_nonneg_iff.mp h
    rw [if_pos h]
    exact (max_eq_left h').symm
  · have h' : UC a.upper ≤ UC b.upper := le_of_lt (by
      rw [← compareUpper_neg_iff]
      omega)
    rw [if_neg h]
    exact (max_eq_right h').symm

theorem touches_eq_overlaps {a b : versionInterval V} :
    a.touches b = a.overlaps b := by
  unfold versionInterval.touches versionInterval.overlaps
  cases h1 : upperLessThanLower a.upper b.lower <;>
    cases h2 : upperLessThanLower b.upper a.lower <;> simp [h1, h2]

theorem overlaps_iff {a b : versionInterval V}
    (ha : a.isEmpty = false) (hb : b.isEmpty = false) :
    a.overlaps b = true ↔ LC b.lower < UC a.upper ∧ LC a.lower < UC b.upper := by
  unfold versionInterval.overlaps
  split_ifs with h1 h2
  · rw [ULL_iff_of_nonempty ha hb] at h1
    constructor
    · intro hc
      simp at hc
    · rintro ⟨hc, _⟩
      exact absurd hc (not_lt_of_le h1)
  · rw [ULL_iff_of_nonempty hb ha] at h2
    constructor
    · intro hc
      simp at hc
    · rintro ⟨_, hc⟩
      exact absurd hc (not_lt_of_le h2)
  · have h1' : LC b.lower < UC a.upper := by
      rw [← not_le, ← ULL_iff_of_nonempty ha hb]
      simpa using h1
    have h2' : LC a.lower < UC b.upper := by
      rw [← not_le, ← ULL_iff_of_nonempty hb ha]
      simpa using h2
    simp [h1', h2']

theorem touches_iff {a b : versionInterval V}
    (ha : a.isEmpty = false) (hb : b.isEmpty = false) :
    a.touches b = true ↔ LC b.lower < UC a.upper ∧ LC a.lower < UC b.upper := by
  rw [touches_eq_overlaps, overlaps_iff ha hb]

theorem complementUpperBound_cut {iv : versionInterval V} :
    UC iv.complementUpperBound = LC iv.lower := by
  unfold versionInterval.complementUpperBound
  cases h : iv.lower <;> simp [UC, LC]

theorem complementLowerBound_cut {iv : versionInterval V} :
    LC iv.complementLowerBound = UC iv.upper := by
  unfold versionInterval.complementLowerBound
  cases h : iv.upper <;> simp [UC, LC]

/-! ## Theorems: the merging sweep of `normalizeIntervals` -/

theorem nonempty_lt {iv : versionInterval V} (h : iv.isEmpty = false) :
    LC iv.lower < UC iv.upper :=
  isEmpty_eq_false_iff.mp h

theorem merge_nonempty {a b : versionInterval V} (ha : a.isEmpty = false)
    (hab : LC a.lower ≤ LC b.lower) : (a.merge b).isEmpty = false := by
  rw [isEmpty_eq_false_iff, merge_lower, merge_upper]
  calc min (LC a.lower) (LC b.lower) = LC a.lower := min_eq_left hab
    _ < UC a.upper := nonempty_lt ha
    _ ≤ max (UC a.upper) (UC b.upper) := le_max_left _ _

theorem cov_cons {x : versionInterval V} {l : VSet V} {c : Cut V} :
    cov (x :: l) c ↔ covIn x c ∨ cov l c := by
  unfold cov
  constructor
  · rintro ⟨iv, hm, hc⟩
    rcases List.mem_cons.mp hm with rfl | hm'
    · exact Or.inl hc
    · exact Or.inr ⟨iv, hm', hc⟩
  · rintro (hc | ⟨iv, hm, hc⟩)
    · exact ⟨x, List.mem_cons_self _ _, hc⟩
    · exact ⟨iv, List.mem_cons_of_mem _ hm, hc⟩

theorem covIn_merge {a cur : versionInterval V} {c : Cut V}
    (hac : LC a.lower ≤ LC cur.lower) (hov : LC cur.lower < UC a.upper) :
    covIn (a.merge cur) c ↔ covIn a c ∨ covIn cur c := by
  unfold covIn
  rw [merge_lower, merge_upper, min_eq_left hac]
  constructor
  · rintro ⟨h1, h2⟩
    by_cases hc : c < UC a.upper
    · exact Or.inl ⟨h1, hc⟩
    · refine Or.inr ⟨le_of_lt (lt_of_lt_of_le hov (not_lt.mp hc)), ?_⟩
      rcases lt_max_iff.mp h2 with h | h
      · exact absurd h hc
      · exact h
  · rintro (⟨h1, h2⟩ | ⟨h1, h2⟩)
    · exact ⟨h1, lt_of_lt_of_le h2 (le_max_left _ _)⟩
    · exact ⟨le_trans hac h1, lt_of_lt_of_le h2 (le_max_right _ _)⟩

theorem mergeSweep_lower_ge {rest : List (versionInterval V)} :
    ∀ {a : versionInterval V}, List.Pairwise lowCutLE (a :: rest) →
    ∀ x ∈ mergeSweep a rest, LC a.lower ≤ LC x.lower := by
  induction rest with
  | nil =>
    intro a _ x hx
    rw [mergeSweep] at hx
    rcases List.mem_singleton.mp hx with rfl
    exact le_refl _
  | cons cur rest' ih =>
    intro a hpw x hx
    obtain ⟨hhead, hpw'⟩ := List.pairwise_cons.mp hpw
    have hac : LC a.lower ≤ LC cur.lower := hhead cur (List.mem_cons_self _ _)
    rw [mergeSweep] at hx
    by_cases ht : a.touches cur
    · rw [if_pos ht] at hx
      have hml : LC (a.merge cur).lower = LC a.lower := by
        rw [merge_lower]
        exact min_eq_left hac
      have hpw2 : List.Pairwise lowCutLE (a.merge cur :: rest') := by
        rw [List.pairwise_cons]
        refine ⟨?_, (List.pairwise_cons.mp hpw').2⟩
        intro y hy
        show LC (a.merge cur).lower ≤ LC y.lower
        rw [hml]
        exact hhead y (List.mem_cons_of_mem _ hy)
      have := ih hpw2 x hx
      rwa [hml] at this
    · rw [if_neg ht] at hx
      rcases List.mem_cons.mp hx with rfl | hx'
      · exact le_refl _
      · exact le_trans hac (ih hpw' x hx')

theorem touches_false_gap {a cur : versionInterval V} (ha : a.isEmpty = false)
    (hcur : cur.isEmpty = false) (hac : LC a.lower ≤ LC cur.lower)
    (ht : ¬(a.touches cur = true)) : cutGap a cur := by
  have ht' : a.touches cur = false := Bool.not_eq_true _ ▸ ht
  cases h1 : upperLessThanLower a.upper cur.lower with
  | true => exact (ULL_iff_of_nonempty ha hcur).mp h1
  | false =>
    cases h2 : upperLessThanLower cur.upper a.lower with
    | true =>
      exfalso
      have hle := (ULL_iff_of_nonempty hcur ha).mp h2
      have := lt_of_le_of_lt (le_trans hle hac) (nonempty_lt hcur)
      exact lt_irrefl _ this
    | false =>
      exfalso
      unfold versionInterval.touches at ht'
      rw [h1, h2] at ht'
      simp at ht'

theorem mergeSweep_normalized {rest : List (versionInterval V)} :
    ∀ {a : versionInterval V}, a.isEmpty = false → (∀ x ∈ rest, x.isEmpty = false) →
    List.Pairwise lowCutLE (a :: rest) →
    NonEmptyIvs (mergeSweep a rest) ∧ List.Pairwise cutGap (mergeSweep a rest) := by
  induction rest with
  | nil =>
    intro a ha _ _
    rw [mergeSweep]
    constructor
    · intro x hx
      rcases List.mem_singleton.mp hx with rfl
      exact ha
    · simp
  | cons cur rest' ih =>
    intro a ha hne hpw
    obtain ⟨hhead, hpw'⟩ := List.pairwise_cons.mp hpw
    have hac : LC a.lower ≤ LC cur.lower := hhead cur (List.mem_cons_self _ _)
    have hcur : cur.isEmpty = false := hne cur (List.mem_cons_self _ _)
    have hne' : ∀ x ∈ rest', x.isEmpty = false :=
      fun x hx => hne x (List.mem_cons_of_mem _ hx)
    by_cases ht : a.touches cur
    · rw [mergeSweep, if_pos ht]
      have hm : (a.merge cur).isEmpty = false := merge_nonempty ha hac
      have hml : LC (a.merge cur).lower = LC a.lower := by
        rw [merge_lower]
        exact min_eq_left hac
      have hpw2 : List.Pairwise lowCutLE (a.merge cur :: rest') := by
        rw [List.pairwise_cons]
        refine ⟨?_, (List.pairwise_cons.mp hpw').2⟩
        intro y hy
        show LC (a.merge cur).lower ≤ LC y.lower
        rw [hml]
        exact hhead y (List.mem_cons_of_mem _ hy)
      exact ih hm hne' hpw2
    · rw [mergeSweep, if_neg ht]
      have hgap : cutGap a cur := touches_false_gap ha hcur hac ht
      obtain ⟨ihne, ihpw⟩ := ih hcur hne' hpw'
      constructor
      · intro x hx
        rcases List.mem_cons.mp hx with rfl | hx'
        · exact ha
        · exact ihne x hx'
      · rw [List.pairwise_cons]
        refine ⟨?_, ihpw⟩
        intro x hx
        exact le_trans hgap (mergeSweep_lower_ge hpw' x hx)

theorem mergeSweep_cov {rest : List (versionInterval V)} :
    ∀ {a : versionInterval V}, a.isEmpty = false → (∀ x ∈ rest, x.isEmpty = false) →
    List.Pairwise lowCutLE (a :: rest) →
    ∀ c, (cov (mergeSweep a rest) c ↔ cov (a :: rest) c) := by
  induction rest with
  | nil =>
    intro a _ _ _ c
    rw [mergeSweep]
  | cons cur rest' ih =>
    intro a ha hne hpw c
    obtain ⟨hhead, hpw'⟩ := List.pairwise_cons.mp hpw
    have hac : LC a.lower ≤ LC cur.lower := hhead cur (List.mem_cons_self _ _)
    have hcur : cur.isEmpty = false := hne cur (List.mem_cons_self _ _)
    have hne' : ∀ x ∈ rest', x.isEmpty = false :=
      fun x hx => hne x (List.mem_cons_of_mem _ hx)
    by_cases ht : a.touches cur
    · rw [mergeSweep, if_pos ht]
      have hov : LC cur.lower < UC a.upper := ((touches_iff ha hcur).mp ht).1
      have hm : (a.merge cur).isEmpty = false := merge_nonempty ha hac
      have hml : LC (a.merge cur).lower = LC a.lower := by
        rw [merge_lower]
        exact min_eq_left hac
      have hpw2 : List.Pairwise lowCutLE (a.merge cur :: rest') := by
        rw [List.pairwise_cons]
        refine ⟨?_, (List.pairwise_cons.mp hpw').2⟩
        intro y hy
        show LC (a.merge cur).lower ≤ LC y.lower
        rw [hml]
        exact hhead y (List.mem_cons_of_mem _ hy)
      rw [ih hm hne' hpw2 c, cov_cons, cov_cons, cov_cons,
        covIn_merge hac hov, or_assoc]
    · rw [mergeSweep, if_neg ht]
      rw [cov_cons, cov_cons, ih hcur hne' hpw' c, cov_cons]

/-! ## Theorems: `normalizeIntervals` -/

theorem cov_perm {l₁ l₂ : VSet V} (h : l₁.Perm l₂) {c : Cut V} :
    cov l₁ c ↔ cov l₂ c := by
  unfold cov
  constructor
  · rintro ⟨iv, hm, hc⟩
    exact ⟨iv, h.mem_iff.mp hm, hc⟩
  · rintro ⟨iv, hm, hc⟩
    exact ⟨iv, h.mem_iff.mpr hm, hc⟩

theorem covIn_nonempty {iv : versionInterval V} {c : Cut V} (h : covIn iv c) :
    iv.isEmpty = false :=
  isEmpty_eq_false_iff.mpr (lt_of_le_of_lt h.1 h.2)

theorem normalize_spec (l : List (versionInterval V)) :
    NonEmptyIvs (normalizeIntervals l) ∧ List.Pairwise cutGap (normalizeIntervals l) ∧
    ∀ c, (cov (normalizeIntervals l) c ↔ cov l c) := by
  haveI ht : IsTotal (versionInterval V) lowerLE := ⟨fun a b => by
    rw [lowerLE_iff, lowerLE_iff]
    exact le_total _ _⟩
  haveI htr : IsTrans (versionInterval V) lowerLE := ⟨fun a b c hab hbc => by
    rw [lowerLE_iff] at hab hbc ⊢
    exact le_trans hab hbc⟩
  have hfne : ∀ x ∈ l.filter (fun iv => !iv.isEmpty), x.isEmpty = false := by
    intro x hx
    have := (List.mem_filter.mp hx).2
    simpa using this
  have hcovf : ∀ c, cov (l.filter (fun iv => !iv.isEmpty)) c ↔ cov l c := by
    intro c
    unfold cov
    constructor
    · rintro ⟨iv, hm, hc⟩
      exact ⟨iv, (List.mem_filter.mp hm).1, hc⟩
    · rintro ⟨iv, hm, hc⟩
      refine ⟨iv, List.mem_filter.mpr ⟨hm, ?_⟩, hc⟩
      simpa using covIn_nonempty hc
  have hperm := List.perm_insertionSort lowerLE (l.filter (fun iv => !iv.isEmpty))
  have hsne : ∀ x ∈ (l.filter (fun iv => !iv.isEmpty)).insertionSort lowerLE,
      x.isEmpty = false := fun x hx => hfne x (hperm.subset hx)
  have hsorted : List.Pairwise lowCutLE
      ((l.filter (fun iv => !iv.isEmpty)).insertionSort lowerLE) :=
    (List.sorted_insertionSort lowerLE _).imp (fun h => lowerLE_iff.mp h)
  have hcovs : ∀ c, cov ((l.filter (fun iv => !iv.isEmpty)).insertionSort lowerLE) c ↔
      cov l c := fun c => (cov_perm hperm).trans (hcovf c)
  unfold normalizeIntervals
  cases hs : (l.filter (fun iv => !iv.isEmpty)).insertionSort lowerLE with
  | nil =>
    refine ⟨fun x hx => absurd hx (List.not_mem_nil x), List.Pairwise.nil, ?_⟩
    intro c
    rw [← hcovs c, hs]
  | cons first rest =>
    rw [hs] at hsne hsorted hcovs
    have hf : first.isEmpty = false := hsne first (List.mem_cons_self _ _)
    have hne' : ∀ x ∈ rest, x.isEmpty = false :=
      fun x hx => hsne x (List.mem_cons_of_mem _ hx)
    obtain ⟨h1, h2⟩ := mergeSweep_normalized hf hne' hsorted
    refine ⟨h1, h2, ?_⟩
    intro c
    show cov (mergeSweep first rest) c ↔ cov l c
    rw [mergeSweep_cov hf hne' hsorted c, hcovs c]

theorem mergeSweep_eq_of_gap {rest : List (versionInterval V)} :
    ∀ {a : versionInterval V}, a.isEmpty = false → (∀ x ∈ rest, x.isEmpty = false) →
    List.Pairwise cutGap (a :: rest) → mergeSweep a rest = a :: rest := by
  induction rest with
  | nil =>
    intro a _ _ _
    rw [mergeSweep]
  | cons cur rest' ih =>
    intro a ha hne hpw
    obtain ⟨hhead, hpw'⟩ := List.pairwise_cons.mp hpw
    have hcur : cur.isEmpty = false := hne cur (List.mem_cons_self _ _)
    have hgap : cutGap a cur := hhead cur (List.mem_cons_self _ _)
    have ht : ¬(a.touches cur = true) := by
      intro hc
      have := ((touches_iff ha hcur).mp hc).1
      exact lt_irrefl _ (lt_of_lt_of_le this hgap)
    rw [mergeSweep, if_neg ht,
      ih hcur (fun x hx => hne x (List.mem_cons_of_mem _ hx)) hpw']

theorem normalized_iff_cutGap {s : VSet V} :
    Normalized s ↔ NonEmptyIvs s ∧ List.Pairwise cutGap s := by
  unfold Normalized
  constructor
  · rintro ⟨hne, hpw⟩
    refine ⟨hne, hpw.imp_of_mem ?_⟩
    intro a b hma hmb h
    exact (ULL_iff_of_nonempty (hne a hma) (hne b hmb)).mp h
  · rintro ⟨hne, hpw⟩
    refine ⟨hne, hpw.imp_of_mem ?_⟩
    intro a b hma hmb h
    exact (ULL_iff_of_nonempty (hne a hma) (hne b hmb)).mpr h

theorem normalized_sorted {s : VSet V} (h : Normalized s) :
    List.Pairwise lowCutLE s := by
  obtain ⟨hne, hpw⟩ := normalized_iff_cutGap.mp h
  refine hpw.imp_of_mem ?_
  intro a b hma _ hab
  exact le_of_lt (lt_of_lt_of_le (nonempty_lt (hne a hma)) hab)

theorem normalize_eq_self {s : VSet V} (h : Normalized s) :
    normalizeIntervals s = s := by
  haveI ht : IsTotal (versionInterval V) lowerLE := ⟨fun a b => by
    rw [lowerLE_iff, lowerLE_iff]
    exact le_total _ _⟩
  haveI htr : IsTrans (versionInterval V) lowerLE := ⟨fun a b c hab hbc => by
    rw [lowerLE_iff] at hab hbc ⊢
    exact le_trans hab hbc⟩
  obtain ⟨hne, hpw⟩ := normalized_iff_cutGap.mp h
  have hfilter : s.filter (fun iv => !iv.isEmpty) = s := by
    rw [List.filter_eq_self]
    intro x hx
    simpa using hne x hx
  have hsorted : List.Sorted lowerLE s := by
    refine (normalized_sorted h).imp_of_mem ?_
    intro a b _ _ hab
    exact lowerLE_iff.mpr hab
  unfold normalizeIntervals
  rw [hfilter, hsorted.insertionSort_eq]
  cases hs : s with
  | nil => rfl
  | cons first rest =>
    rw [hs] at hne hpw
    exact mergeSweep_eq_of_gap (hne first (List.mem_cons_self _ _))
      (fun x hx => hne x (List.mem_cons_of_mem _ hx)) hpw

/-! ## Theorems: the intersection sweep -/

theorem cov_nil {c : Cut V} : cov ([] : VSet V) c ↔ False := by
  unfold cov
  simp

theorem cov_append {l₁ l₂ : VSet V} {c : Cut V} :
    cov (l₁ ++ l₂) c ↔ cov l₁ c ∨ cov l₂ c := by
  unfold cov
  constructor
  · rintro ⟨iv, hm, hc⟩
    rcases List.mem_append.mp hm with h | h
    · exact Or.inl ⟨iv, h, hc⟩
    · exact Or.inr ⟨iv, h, hc⟩
  · rintro (⟨iv, hm, hc⟩ | ⟨iv, hm, hc⟩)
    · exact ⟨iv, List.mem_append.mpr (Or.inl hm), hc⟩
    · exact ⟨iv, List.mem_append.mpr (Or.inr hm), hc⟩

theorem LC_cmax {a b : versionBound V} :
    LC (cmax a b compareLower) = max (LC a) (LC b) := by
  unfold cmax
  by_cases h : compareLower a b ≥ 0
  · have h' : LC b ≤ LC a := compareLower_nonneg_iff.mp h
    rw [if_pos h]
    exact (max_eq_left h').symm
  · have h' : LC a ≤ LC b := le_of_lt (by
      rw [← compareLower_neg_iff]
      omega)
    rw [if_neg h]
    exact (max_eq_right h').symm

theorem UC_cmin {a b : versionBound V} :
    UC (cmin a b compareUpper) = min (UC a) (UC b) := by
  unfold cmin
  by_cases h : compareUpper a b ≤ 0
  · have h' : UC a ≤ UC b := compareUpper_nonpos_iff.mp h
    rw [if_pos h]
    exact (min_eq_left h').symm
  · have h' : UC b ≤ UC a := le_of_lt (by
      rw [← compareUpper_pos_iff]
      omega)
    rw [if_neg h]
    exact (min_eq_right h').symm

/-- The head emitted by one intersection step covers exactly the common cuts
of the two intervals. -/
theorem cov_interHead {a b : versionInterval V} {c : Cut V} :
    cov (match intersectInterval a b with
         | some iv => [iv]
         | none => []) c ↔ covIn a c ∧ covIn b c := by
  unfold intersectInterval
  cases h : newInterval (cmax a.lower b.lower compareLower) (cmin a.upper b.upper compareUpper) with
  | none =>
    rw [newInterval_eq_none_iff, LC_cmax, UC_cmin] at h
    rw [cov_nil]
    constructor
    · intro hc
      exact hc.elim
    · rintro ⟨⟨h1a, h2a⟩, ⟨h1b, h2b⟩⟩
      exact h (lt_of_le_of_lt (max_le h1a h1b) (lt_min h2a h2b))
  | some iv =>
    obtain ⟨hlt, rfl⟩ := newInterval_eq_some_iff.mp h
    rw [cov_cons, cov_nil, or_false]
    unfold covIn
    show LC (cmax a.lower b.lower compareLower) ≤ c ∧
      c < UC (cmin a.upper b.upper compareUpper) ↔ _
    rw [LC_cmax, UC_cmin, max_le_iff, lt_min_iff]
    constructor
    · rintro ⟨⟨h1, h2⟩, h3, h4⟩
      exact ⟨⟨h1, h3⟩, h2, h4⟩
    · rintro ⟨⟨h1, h3⟩, h2, h4⟩
      exact ⟨⟨h1, h2⟩, h3, h4⟩

/-- In a gapped non-empty list, the head has the least lower cut. -/
theorem chain_head_lower_le {a : versionInterval V} {rest : List (versionInterval V)}
    (hne : ∀ x ∈ a :: rest, x.isEmpty = false)
    (hpw : List.Pairwise cutGap (a :: rest)) :
    ∀ x ∈ a :: rest, LC a.lower ≤ LC x.lower := by
  intro x hx
  rcases List.mem_cons.mp hx with rfl | hx'
  · exact le_refl _
  · have hgap : cutGap a x := (List.pairwise_cons.mp hpw).1 x hx'
    exact le_of_lt (lt_of_lt_of_le (nonempty_lt (hne a (List.mem_cons_self _ _))) hgap)

theorem interSweep_cov (A B : VSet V) :
    NonEmptyIvs A → List.Pairwise cutGap A → NonEmptyIvs B → List.Pairwise cutGap B →
    ∀ c, (cov (interSweep A B) c ↔ cov A c ∧ cov B c) := by
  induction A, B using interSweep.induct with
  | case1 B =>
    intro _ _ _ _ c
    rw [interSweep, cov_nil]
    simp
  | case2 A hA =>
    intro _ _ _ _ c
    have hi : interSweep A [] = [] := by
      unfold interSweep
      cases A with
      | nil => rfl
      | cons a as_ => rfl
    rw [hi, cov_nil]
    simp
  | case3 a as_ b bs hadv ih =>
    intro hneA hpwA hneB hpwB c
    have hneas : NonEmptyIvs as_ := fun x hx => hneA x (List.mem_cons_of_mem _ hx)
    have hpwas : List.Pairwise cutGap as_ := (List.pairwise_cons.mp hpwA).2
    rw [interSweep, if_pos hadv, cov_append, cov_interHead,
      ih hneas hpwas hneB hpwB c]
    simp only [cov_cons]
    have hUab : UC a.upper < UC b.upper := compareUpper_neg_iff.mp hadv
    constructor
    · rintro (⟨hca, hcb⟩ | ⟨hcas, hcB⟩)
      · exact ⟨Or.inl hca, Or.inl hcb⟩
      · exact ⟨Or.inr hcas, hcB⟩
    · rintro ⟨hca | hcas, hcB⟩
      · left
        refine ⟨hca, ?_⟩
        rcases hcB with hcb | hcbs
        · exact hcb
        · exfalso
          obtain ⟨y, hy', hcy⟩ := hcbs
          have hgap : cutGap b y := (List.pairwise_cons.mp hpwB).1 y hy'
          have h1 : c < UC a.upper := hca.2
          have h2 : LC y.lower ≤ c := hcy.1
          exact lt_irrefl _ (lt_of_le_of_lt (le_trans (le_of_lt hUab) (le_trans hgap h2)) h1)
      · exact Or.inr ⟨hcas, hcB⟩
  | case4 a as_ b bs hadv ih =>
    intro hneA hpwA hneB hpwB c
    have hnebs : NonEmptyIvs bs := fun x hx => hneB x (List.mem_cons_of_mem _ hx)
    have hpwbs : List.Pairwise cutGap bs := (List.pairwise_cons.mp hpwB).2
    rw [interSweep, if_neg hadv, cov_append, cov_interHead,
      ih hneA hpwA hnebs hpwbs c]
    simp only [cov_cons]
    have hUba : UC b.upper ≤ UC a.upper := by
      rw [← compareUpper_nonneg_iff]
      omega
    constructor
    · rintro (⟨hca, hcb⟩ | ⟨hcA, hcbs⟩)
      · exact ⟨Or.inl hca, Or.inl hcb⟩
      · exact ⟨hcA, Or.inr hcbs⟩
    · rintro ⟨hcA, hcb | hcbs⟩
      · left
        refine ⟨?_, hcb⟩
        rcases hcA with hca | hcas
        · exact hca
        · exfalso
          obtain ⟨y, hy', hcy⟩ := hcas
          have hgap : cutGap a y := (List.pairwise_cons.mp hpwA).1 y hy'
          have h1 : c < UC b.upper := hcb.2
          have h2 : LC y.lower ≤ c := hcy.1
          exact lt_irrefl _ (lt_of_le_of_lt (le_trans hUba (le_trans hgap h2)) h1)
      · exact Or.inr ⟨hcA, hcbs⟩

theorem interSweep_nil_right (A : VSet V) : interSweep A [] = [] := by
  unfold interSweep
  cases A with
  | nil => rfl
  | cons a as_ => rfl

theorem interSweep_lower_ge (A B : VSet V) :
    NonEmptyIvs A → List.Pairwise cutGap A → NonEmptyIvs B → List.Pairwise cutGap B →
    ∀ x ∈ interSweep A B,
      (∀ a0, A.head? = some a0 → LC a0.lower ≤ LC x.lower) ∧
      (∀ b0, B.head? = some b0 → LC b0.lower ≤ LC x.lower) := by
  induction A, B using interSweep.induct with
  | case1 B =>
    intro _ _ _ _ x hx
    rw [interSweep] at hx
    exact absurd hx (List.not_mem_nil x)
  | case2 A hA =>
    intro _ _ _ _ x hx
    rw [interSweep_nil_right] at hx
    exact absurd hx (List.not_mem_nil x)
  | case3 a as_ b bs hadv ih =>
    intro hneA hpwA hneB hpwB x hx
    have ha : a.isEmpty = false := hneA a (List.mem_cons_self _ _)
    have hneas : NonEmptyIvs as_ := fun y hy => hneA y (List.mem_cons_of_mem _ hy)
    have hpwas : List.Pairwise cutGap as_ := (List.pairwise_cons.mp hpwA).2
    rw [interSweep, if_pos hadv] at hx
    rcases List.mem_append.mp hx with hx1 | hx2
    · cases hh : intersectInterval a b with
      | none =>
        rw [hh] at hx1
        exact absurd hx1 (List.not_mem_nil x)
      | some iv =>
        rw [hh] at hx1
        rcases List.mem_singleton.mp hx1 with rfl
        obtain ⟨_, rfl⟩ := newInterval_eq_some_iff.mp hh
        constructor
        · rintro a0 ha0
          rcases Option.some_injective _ ha0.symm with rfl
          show LC a0.lower ≤ LC (cmax a0.lower b.lower compareLower)
          rw [LC_cmax]
          exact le_max_left _ _
        · rintro b0 hb0
          rcases Option.some_injective _ hb0.symm with rfl
          show LC b0.lower ≤ LC (cmax a.lower b0.lower compareLower)
          rw [LC_cmax]
          exact le_max_right _ _
    · have hih := ih hneas hpwas hneB hpwB x hx2
      constructor
      · rintro a0 ha0
        rcases Option.some_injective _ ha0.symm with rfl
        cases has : as_ with
        | nil =>
          rw [has, interSweep] at hx2
          exact absurd hx2 (List.not_mem_nil x)
        | cons a1 as1 =>
          have hgap : cutGap a0 a1 := by
            have := (List.pairwise_cons.mp hpwA).1 a1
            rw [has] at this
            exact this (List.mem_cons_self _ _)
          have h1 : LC a1.lower ≤ LC x.lower := by
            refine (hih.1 a1 ?_)
            rw [has]
            rfl
          exact le_trans (le_of_lt (lt_of_lt_of_le (nonempty_lt ha) hgap)) h1
      · rintro b0 hb0
        exact hih.2 b0 hb0
  | case4 a as_ b bs hadv ih =>
    intro hneA hpwA hneB hpwB x hx
    have hb : b.isEmpty = false := hneB b (List.mem_cons_self _ _)
    have hnebs : NonEmptyIvs bs := fun y hy => hneB y (List.mem_cons_of_mem _ hy)
    have hpwbs : List.Pairwise cutGap bs := (List.pairwise_cons.mp hpwB).2
    rw [interSweep, if_neg hadv] at hx
    rcases List.mem_append.mp hx with hx1 | hx2
    · cases hh : intersectInterval a b with
      | none =>
        rw [hh] at hx1
        exact absurd hx1 (List.not_mem_nil x)
      | some iv =>
        rw [hh] at hx1
        rcases List.mem_singleton.mp hx1 with rfl
        obtain ⟨_, rfl⟩ := newInterval_eq_some_iff.mp hh
        constructor
        · rintro a0 ha0
          rcases Option.some_injective _ ha0.symm with rfl
          show LC a0.lower ≤ LC (cmax a0.lower b.lower compareLower)
          rw [LC_cmax]
          exact le_max_left _ _
        · rintro b0 hb0
          rcases Option.some_injective _ hb0.symm with rfl
          show LC b0.lower ≤ LC (cmax a.lower b0.lower compareLower)
          rw [LC_cmax]
          exact le_max_right _ _
    · have hih := ih hneA hpwA hnebs hpwbs x hx2
      constructor
      · rintro a0 ha0
        exact hih.1 a0 ha0
      · rintro b0 hb0
        rcases Option.some_injective _ hb0.symm with rfl
        cases hbs : bs with
        | nil =>
          rw [hbs, interSweep_nil_right] at hx2
          exact absurd hx2 (List.not_mem_nil x)
        | cons b1 bs1 =>
          have hgap : cutGap b0 b1 := by
            have := (List.pairwise_cons.mp hpwB).1 b1
            rw [hbs] at this
            exact this (List.mem_cons_self _ _)
          have h1 : LC b1.lower ≤ LC x.lower := by
            refine (hih.2 b1 ?_)
            rw [hbs]
            rfl
          exact le_trans (le_of_lt (lt_of_lt_of_le (nonempty_lt hb) hgap)) h1

theorem interSweep_chain (A B : VSet V) :
    NonEmptyIvs A → List.Pairwise cutGap A → NonEmptyIvs B → List.Pairwise cutGap B →
    NonEmptyIvs (interSweep A B) ∧ List.Pairwise cutGap (interSweep A B) := by
  induction A, B using interSweep.induct with
  | case1 B =>
    intro _ _ _ _
    rw [interSweep]
    exact ⟨fun x hx => absurd hx (List.not_mem_nil x), List.Pairwise.nil⟩
  | case2 A hA =>
    intro _ _ _ _
    rw [interSweep_nil_right]
    exact ⟨fun x hx => absurd hx (List.not_mem_nil x), List.Pairwise.nil⟩
  | case3 a as_ b bs hadv ih =>
    intro hneA hpwA hneB hpwB
    have ha : a.isEmpty = false := hneA a (List.mem_cons_self _ _)
    have hneas : NonEmptyIvs as_ := fun y hy => hneA y (List.mem_cons_of_mem _ hy)
    have hpwas : List.Pairwise cutGap as_ := (List.pairwise_cons.mp hpwA).2
    obtain ⟨ihne, ihpw⟩ := ih hneas hpwas hneB hpwB
    rw [interSweep, if_pos hadv]
    constructor
    · intro x hx
      rcases List.mem_append.mp hx with hx1 | hx2
      · cases hh : intersectInterval a b with
        | none =>
          rw [hh] at hx1
          exact absurd hx1 (List.not_mem_nil x)
        | some iv =>
          rw [hh] at hx1
          rcases List.mem_singleton.mp hx1 with rfl
          obtain ⟨hlt, rfl⟩ := newInterval_eq_some_iff.mp hh
          exact isEmpty_eq_false_iff.mpr hlt
      · exact ihne x hx2
    · rw [List.pairwise_append]
      refine ⟨?_, ihpw, ?_⟩
      · cases hh : intersectInterval a b with
        | none => exact List.Pairwise.nil
        | some iv => simp
      · intro x hx1 y hy2
        cases hh : intersectInterval a b with
        | none =>
          rw [hh] at hx1
          exact absurd hx1 (List.not_mem_nil x)
        | some iv =>
          rw [hh] at hx1
          rcases List.mem_singleton.mp hx1 with rfl
          obtain ⟨hlt, rfl⟩ := newInterval_eq_some_iff.mp hh
          show UC (cmin a.upper b.upper compareUpper) ≤ LC y.lower
          rw [UC_cmin]
          cases has : as_ with
          | nil =>
            rw [has, interSweep] at hy2
            exact absurd hy2 (List.not_mem_nil y)
          | cons a1 as1 =>
            have hgap : cutGap a a1 := by
              have := (List.pairwise_cons.mp hpwA).1 a1
              rw [has] at this
              exact this (List.mem_cons_self _ _)
            have h1 : LC a1.lower ≤ LC y.lower := by
              have := (interSweep_lower_ge as_ (b :: bs) hneas hpwas hneB hpwB y hy2).1
              refine this a1 ?_
              rw [has]
              rfl
            calc min (UC a.upper) (UC b.upper) ≤ UC a.upper := min_le_left _ _
              _ ≤ LC a1.lower := hgap
              _ ≤ LC y.lower := h1
  | case4 a as_ b bs hadv ih =>
    intro hneA hpwA hneB hpwB
    have hb : b.isEmpty = false := hneB b (List.mem_cons_self _ _)
    have hnebs : NonEmptyIvs bs := fun y hy => hneB y (List.mem_cons_of_mem _ hy)
    have hpwbs : List.Pairwise cutGap bs := (List.pairwise_cons.mp hpwB).2
    obtain ⟨ihne, ihpw⟩ := ih hneA hpwA hnebs hpwbs
    rw [interSweep, if_neg hadv]
    constructor
    · intro x hx
      rcases List.mem_append.mp hx with hx1 | hx2
      · cases hh : intersectInterval a b with
        | none =>
          rw [hh] at hx1
          exact absurd hx1 (List.not_mem_nil x)
        | some iv =>
          rw [hh] at hx1
          rcases List.mem_singleton.mp hx1 with rfl
          obtain ⟨hlt, rfl⟩ := newInterval_eq_some_iff.mp hh
          exact isEmpty_eq_false_iff.mpr hlt
      · exact ihne x hx2
    · rw [List.pairwise_append]
      refine ⟨?_, ihpw, ?_⟩
      · cases hh : intersectInterval a b with
        | none => exact List.Pairwise.nil
        | some iv => simp
      · intro x hx1 y hy2
        cases hh : intersectInterval a b with
        | none =>
          rw [hh] at hx1
          exact absurd hx1 (List.not_mem_nil x)
        | some iv =>
          rw [hh] at hx1
          rcases List.mem_singleton.mp hx1 with rfl
          obtain ⟨hlt, rfl⟩ := newInterval_eq_some_iff.mp hh
          show UC (cmin a.upper b.upper compareUpper) ≤ LC y.lower
          rw [UC_cmin]
          cases hbs : bs with
          | nil =>
            rw [hbs, interSweep_nil_right] at hy2
            exact absurd hy2 (List.not_mem_nil y)
          | cons b1 bs1 =>
            have hgap : cutGap b b1 := by
              have := (List.pairwise_cons.mp hpwB).1 b1
              rw [hbs] at this
              exact this (List.mem_cons_self _ _)
            have h1 : LC b1.lower ≤ LC y.lower := by
              have := (interSweep_lower_ge (a :: as_) bs hneA hpwA hnebs hpwbs y hy2).2
              refine this b1 ?_
              rw [hbs]
              rfl
            calc min (UC a.upper) (UC b.upper) ≤ UC b.upper := min_le_right _ _
              _ ≤ LC b1.lower := hgap
              _ ≤ LC y.lower := h1

theorem strictGap_cutGap {a b : versionInterval V} (h : strictGap a b) : cutGap a b :=
  le_of_lt h

theorem interSweep_strict (A B : VSet V) :
    NonEmptyIvs A → List.Pairwise strictGap A → NonEmptyIvs B → List.Pairwise strictGap B →
    List.Pairwise strictGap (interSweep A B) := by
  induction A, B using interSweep.induct with
  | case1 B =>
    intro _ _ _ _
    rw [interSweep]
    exact List.Pairwise.nil
  | case2 A hA =>
    intro _ _ _ _
    rw [interSweep_nil_right]
    exact List.Pairwise.nil
  | case3 a as_ b bs hadv ih =>
    intro hneA hpwA hneB hpwB
    have hneas : NonEmptyIvs as_ := fun y hy => hneA y (List.mem_cons_of_mem _ hy)
    have hpwas : List.Pairwise strictGap as_ := (List.pairwise_cons.mp hpwA).2
    have ihpw := ih hneas hpwas hneB hpwB
    rw [interSweep, if_pos hadv]
    rw [List.pairwise_append]
    refine ⟨?_, ihpw, ?_⟩
    · cases hh : intersectInterval a b with
      | none => exact List.Pairwise.nil
      | some iv => simp
    · intro x hx1 y hy2
      cases hh : intersectInterval a b with
      | none =>
        rw [hh] at hx1
        exact absurd hx1 (List.not_mem_nil x)
      | some iv =>
        rw [hh] at hx1
        rcases List.mem_singleton.mp hx1 with rfl
        obtain ⟨hlt, rfl⟩ := newInterval_eq_some_iff.mp hh
        show UC (cmin a.upper b.upper compareUpper) < LC y.lower
        rw [UC_cmin]
        cases has : as_ with
        | nil =>
          rw [has, interSweep] at hy2
          exact absurd hy2 (List.not_mem_nil y)
        | cons a1 as1 =>
          have hgap : strictGap a a1 := by
            have := (List.pairwise_cons.mp hpwA).1 a1
            rw [has] at this
            exact this (List.mem_cons_self _ _)
          have h1 : LC a1.lower ≤ LC y.lower := by
            have := (interSweep_lower_ge as_ (b :: bs) hneas
              (hpwas.imp strictGap_cutGap) hneB (hpwB.imp strictGap_cutGap) y hy2).1
            refine this a1 ?_
            rw [has]
            rfl
          calc min (UC a.upper) (UC b.upper) ≤ UC a.upper := min_le_left _ _
            _ < LC a1.lower := hgap
            _ ≤ LC y.lower := h1
  | case4 a as_ b bs hadv ih =>
    intro hneA hpwA hneB hpwB
    have hnebs : NonEmptyIvs bs := fun y hy => hneB y (List.mem_cons_of_mem _ hy)
    have hpwbs : List.Pairwise strictGap bs := (List.pairwise_cons.mp hpwB).2
    have ihpw := ih hneA hpwA hnebs hpwbs
    rw [interSweep, if_neg hadv]
    rw [List.pairwise_append]
    refine ⟨?_, ihpw, ?_⟩
    · cases hh : intersectInterval a b with
      | none => exact List.Pairwise.nil
      | some iv => simp
    · intro x hx1 y hy2
      cases hh : intersectInterval a b with
      | none =>
        rw [hh] at hx1
        exact absurd hx1 (List.not_mem_nil x)
      | some iv =>
        rw [hh] at hx1
        rcases List.mem_singleton.mp hx1 with rfl
        obtain ⟨hlt, rfl⟩ := newInterval_eq_some_iff.mp hh
        show UC (cmin a.upper b.upper compareUpper) < LC y.lower
        rw [UC_cmin]
        cases hbs : bs with
        | nil =>
          rw [hbs, interSweep_nil_right] at hy2
          exact absurd hy2 (List.not_mem_nil y)
        | cons b1 bs1 =>
          have hgap : strictGap b b1 := by
            have := (List.pairwise_cons.mp hpwB).1 b1
            rw [hbs] at this
            exact this (List.mem_cons_self _ _)
          have h1 : LC b1.lower ≤ LC y.lower := by
            have := (interSweep_lower_ge (a :: as_) bs hneA
              (hpwA.imp strictGap_cutGap) hnebs (hpwbs.imp strictGap_cutGap) y hy2).2
            refine this b1 ?_
            rw [hbs]
            rfl
          calc min (UC a.upper) (UC b.upper) ≤ UC b.upper := min_le_right _ _
            _ < LC b1.lower := hgap
            _ ≤ LC y.lower := h1

/-! ## Theorems: the complement gap sweep -/

theorem cov_newOpt {l u : versionBound V} {c : Cut V} :
    cov (match newInterval l u with
         | some g => [g]
         | none => []) c ↔ LC l ≤ c ∧ c < UC u := by
  cases h : newInterval l u with
  | none =>
    rw [newInterval_eq_none_iff] at h
    rw [cov_nil]
    constructor
    · intro hc
      exact hc.elim
    · rintro ⟨h1, h2⟩
      exact h (lt_of_le_of_lt h1 h2)
  | some g =>
    obtain ⟨hlt, rfl⟩ := newInterval_eq_some_iff.mp h
    rw [cov_cons, cov_nil, or_false]
    exact Iff.rfl

theorem complGaps_cov (A : VSet V) :
    ∀ (cur : versionBound V), NonEmptyIvs A → List.Pairwise cutGap A →
    (∀ y ∈ A, LC cur ≤ UC y.upper) →
    ∀ c, (cov (complGaps cur A) c ↔ LC cur ≤ c ∧ c < ⊤ ∧ ¬cov A c) := by
  induction A with
  | nil =>
    intro cur _ _ _ c
    rw [complGaps, cov_newOpt]
    show LC cur ≤ c ∧ c < UC (versionBound.posInf (V := V)) ↔ _
    rw [cov_nil]
    simp [UC]
  | cons iv rest ih =>
    intro cur hne hpw hinv c
    have hiv : iv.isEmpty = false := hne iv (List.mem_cons_self _ _)
    have hnerest : NonEmptyIvs rest := fun y hy => hne y (List.mem_cons_of_mem _ hy)
    have hpwrest : List.Pairwise cutGap rest := (List.pairwise_cons.mp hpw).2
    have hinv' : ∀ y ∈ rest, LC iv.complementLowerBound ≤ UC y.upper := by
      intro y hy
      rw [complementLowerBound_cut]
      have hgap : cutGap iv y := (List.pairwise_cons.mp hpw).1 y hy
      exact le_of_lt (lt_of_le_of_lt hgap (nonempty_lt (hnerest y hy)))
    rw [complGaps, cov_append, cov_newOpt, ih iv.complementLowerBound hnerest hpwrest hinv' c,
      complementUpperBound_cut, complementLowerBound_cut, cov_cons]
    constructor
    · rintro (⟨h1, h2⟩ | ⟨h1, h2, h3⟩)
      · have hc3 : c < ⊤ :=
          lt_of_lt_of_le (lt_trans h2 (nonempty_lt hiv)) le_top
        refine ⟨h1, hc3, ?_⟩
        rintro (hciv | hcrest)
        · exact absurd hciv.1 (not_le_of_lt h2)
        · obtain ⟨y, hy, hcy⟩ := hcrest
          have hgap : cutGap iv y := (List.pairwise_cons.mp hpw).1 y hy
          have : c < LC y.lower :=
            lt_of_lt_of_le (lt_trans h2 (nonempty_lt hiv)) hgap
          exact absurd hcy.1 (not_le_of_lt this)
      · refine ⟨le_trans (hinv iv (List.mem_cons_self _ _)) h1, h2, ?_⟩
        rintro (hciv | hcrest)
        · exact absurd hciv.2 (not_lt_of_le h1)
        · exact h3 hcrest
    · rintro ⟨h1, h2, h3⟩
      by_cases hc : c < LC iv.lower
      · exact Or.inl ⟨h1, hc⟩
      · refine Or.inr ⟨?_, h2, fun hr => h3 (Or.inr hr)⟩
        by_contra hc2
        exact h3 (Or.inl ⟨not_lt.mp hc, not_le.mp hc2⟩)

theorem complGaps_lower_ge (A : VSet V) :
    ∀ (cur : versionBound V), NonEmptyIvs A → List.Pairwise cutGap A →
    (∀ y ∈ A, LC cur ≤ UC y.upper) →
    ∀ x ∈ complGaps cur A, LC cur ≤ LC x.lower := by
  induction A with
  | nil =>
    intro cur _ _ _ x hx
    rw [complGaps] at hx
    cases h : newInterval cur (versionBound.posInf (V := V)) with
    | none =>
      rw [h] at hx
      exact absurd hx (List.not_mem_nil x)
    | some g =>
      rw [h] at hx
      rcases List.mem_singleton.mp hx with rfl
      obtain ⟨_, rfl⟩ := newInterval_eq_some_iff.mp h
      exact le_refl _
  | cons iv rest ih =>
    intro cur hne hpw hinv x hx
    have hnerest : NonEmptyIvs rest := fun y hy => hne y (List.mem_cons_of_mem _ hy)
    have hpwrest : List.Pairwise cutGap rest := (List.pairwise_cons.mp hpw).2
    have hinv' : ∀ y ∈ rest, LC iv.complementLowerBound ≤ UC y.upper := by
      intro y hy
      rw [complementLowerBound_cut]
      have hgap : cutGap iv y := (List.pairwise_cons.mp hpw).1 y hy
      exact le_of_lt (lt_of_le_of_lt hgap (nonempty_lt (hnerest y hy)))
    rw [complGaps] at hx
    rcases List.mem_append.mp hx with hx1 | hx2
    · cases h : newInterval cur iv.complementUpperBound with
      | none =>
        rw [h] at hx1
        exact absurd hx1 (List.not_mem_nil x)
      | some g =>
        rw [h] at hx1
        rcases List.mem_singleton.mp hx1 with rfl
        obtain ⟨_, rfl⟩ := newInterval_eq_some_iff.mp h
        exact le_refl _
    · have := ih iv.complementLowerBound hnerest hpwrest hinv' x hx2
      rw [complementLowerBound_cut] at this
      exact le_trans (hinv iv (List.mem_cons_self _ _)) this

theorem complGaps_strict (A : VSet V) :
    ∀ (cur : versionBound V), NonEmptyIvs A → List.Pairwise cutGap A →
    (∀ y ∈ A, LC cur ≤ UC y.upper) →
    NonEmptyIvs (complGaps cur A) ∧ List.Pairwise strictGap (complGaps cur A) := by
  induction A with
  | nil =>
    intro cur _ _ _
    rw [complGaps]
    cases h : newInterval cur (versionBound.posInf (V := V)) with
    | none => exact ⟨fun x hx => absurd hx (List.not_mem_nil x), List.Pairwise.nil⟩
    | some g =>
      obtain ⟨hlt, rfl⟩ := newInterval_eq_some_iff.mp h
      refine ⟨?_, ?_⟩
      · intro x hx
        rcases List.mem_singleton.mp hx with rfl
        exact isEmpty_eq_false_iff.mpr hlt
      · simp
  | cons iv rest ih =>
    intro cur hne hpw hinv
    have hiv : iv.isEmpty = false := hne iv (List.mem_cons_self _ _)
    have hnerest : NonEmptyIvs rest := fun y hy => hne y (List.mem_cons_of_mem _ hy)
    have hpwrest : List.Pairwise cutGap rest := (List.pairwise_cons.mp hpw).2
    have hinv' : ∀ y ∈ rest, LC iv.complementLowerBound ≤ UC y.upper := by
      intro y hy
      rw [complementLowerBound_cut]
      have hgap : cutGap iv y := (List.pairwise_cons.mp hpw).1 y hy
      exact le_of_lt (lt_of_le_of_lt hgap (nonempty_lt (hnerest y hy)))
    obtain ⟨ihne, ihpw⟩ := ih iv.complementLowerBound hnerest hpwrest hinv'
    rw [complGaps]
    constructor
    · intro x hx
      rcases List.mem_append.mp hx with hx1 | hx2
      · cases h : newInterval cur iv.complementUpperBound with
        | none =>
          rw [h] at hx1
          exact absurd hx1 (List.not_mem_nil x)
        | some g =>
          rw [h] at hx1
          rcases List.mem_singleton.mp hx1 with rfl
          obtain ⟨hlt, rfl⟩ := newInterval_eq_some_iff.mp h
          exact isEmpty_eq_false_iff.mpr hlt
      · exact ihne x hx2
    · rw [List.pairwise_append]
      refine ⟨?_, ihpw, ?_⟩
      · cases h : newInterval cur iv.complementUpperBound with
        | none => exact List.Pairwise.nil
        | some g => simp
      · intro x hx1 y hy2
        cases h : newInterval cur iv.complementUpperBound with
        | none =>
          rw [h] at hx1
          exact absurd hx1 (List.not_mem_nil x)
        | some g =>
          rw [h] at hx1
          rcases List.mem_singleton.mp hx1 with rfl
          obtain ⟨hlt, rfl⟩ := newInterval_eq_some_iff.mp h
          show UC iv.complementUpperBound < LC y.lower
          rw [complementUpperBound_cut]
          have h1 : LC iv.complementLowerBound ≤ LC y.lower :=
            complGaps_lower_ge rest iv.complementLowerBound hnerest hpwrest hinv' y hy2
          rw [complementLowerBound_cut] at h1
          exact lt_of_lt_of_le (nonempty_lt hiv) h1

/-! ## Theorems: strictly separated lists are canonical for their cut sets -/

theorem LC_injective {a b : versionBound V} (h : LC a = LC b) : a = b := by
  cases a with
  | negInf =>
    cases b with
    | negInf => rfl
    | finite w j => exact absurd h (ne_of_lt bot_lt_cutMid)
    | posInf => exact absurd h (ne_of_lt bot_lt_top_cut)
  | posInf =>
    cases b with
    | negInf => exact absurd h.symm (ne_of_lt bot_lt_top_cut)
    | finite w j => exact absurd h.symm (ne_of_lt cutMid_lt_top)
    | posInf => rfl
  | finite v i =>
    cases b with
    | negInf => exact absurd h.symm (ne_of_lt bot_lt_cutMid)
    | posInf => exact absurd h (ne_of_lt cutMid_lt_top)
    | finite w j =>
      obtain ⟨rfl, hij⟩ := cutMid_eq_iff.mp h
      have hij' : i = j := by
        cases i <;> cases j <;> simp_all
      rw [hij']

theorem UC_injective {a b : versionBound V} (h : UC a = UC b) : a = b := by
  cases a with
  | negInf =>
    cases b with
    | negInf => rfl
    | finite w j => exact absurd h (ne_of_lt bot_lt_cutMid)
    | posInf => exact absurd h (ne_of_lt bot_lt_top_cut)
  | posInf =>
    cases b with
    | negInf => exact absurd h.symm (ne_of_lt bot_lt_top_cut)
    | finite w j => exact absurd h.symm (ne_of_lt cutMid_lt_top)
    | posInf => rfl
  | finite v i =>
    cases b with
    | negInf => exact absurd h.symm (ne_of_lt bot_lt_cutMid)
    | posInf => exact absurd h (ne_of_lt cutMid_lt_top)
    | finite w j =>
      obtain ⟨rfl, hij⟩ := cutMid_eq_iff.mp h
      rw [hij]

theorem strict_head_lower {b : versionInterval V} {B' : VSet V}
    (hne : NonEmptyIvs (b :: B')) (hpw : List.Pairwise strictGap (b :: B')) :
    ∀ y ∈ b :: B', LC b.lower ≤ LC y.lower := by
  intro y hy
  rcases List.mem_cons.mp hy with rfl | hy'
  · exact le_refl _
  · have hgap : strictGap b y := (List.pairwise_cons.mp hpw).1 y hy'
    exact le_of_lt (lt_trans (nonempty_lt (hne b (List.mem_cons_self _ _))) hgap)

theorem strict_unique {A : VSet V} :
    ∀ {B : VSet V}, NonEmptyIvs A → List.Pairwise strictGap A →
    NonEmptyIvs B → List.Pairwise strictGap B →
    (∀ c, cov A c ↔ cov B c) → A = B := by
  induction A with
  | nil =>
    intro B _ _ hneB hpwB hcov
    cases B with
    | nil => rfl
    | cons b B' =>
      exfalso
      have hb : covIn b (LC b.lower) :=
        ⟨le_refl _, nonempty_lt (hneB b (List.mem_cons_self _ _))⟩
      have : cov ([] : VSet V) (LC b.lower) :=
        (hcov (LC b.lower)).mpr ⟨b, List.mem_cons_self _ _, hb⟩
      exact cov_nil.mp this
  | cons a A' ih =>
    intro B hneA hpwA hneB hpwB hcov
    cases B with
    | nil =>
      exfalso
      have ha : covIn a (LC a.lower) :=
        ⟨le_refl _, nonempty_lt (hneA a (List.mem_cons_self _ _))⟩
      have : cov ([] : VSet V) (LC a.lower) :=
        (hcov (LC a.lower)).mp ⟨a, List.mem_cons_self _ _, ha⟩
      exact cov_nil.mp this
    | cons b B' =>
      have ha : a.isEmpty = false := hneA a (List.mem_cons_self _ _)
      have hb : b.isEmpty = false := hneB b (List.mem_cons_self _ _)
      -- the two heads start at the same cut
      have hlow : LC a.lower = LC b.lower := by
        have h1 : LC b.lower ≤ LC a.lower := by
          obtain ⟨y, hy, hcy⟩ := (hcov (LC a.lower)).mp
            ⟨a, List.mem_cons_self _ _, le_refl _, nonempty_lt ha⟩
          exact le_trans (strict_head_lower hneB hpwB y hy) hcy.1
        have h2 : LC a.lower ≤ LC b.lower := by
          obtain ⟨y, hy, hcy⟩ := (hcov (LC b.lower)).mpr
            ⟨b, List.mem_cons_self _ _, le_refl _, nonempty_lt hb⟩
          exact le_trans (strict_head_lower hneA hpwA y hy) hcy.1
        exact le_antisymm h2 h1
      -- the two heads end at the same cut
      have hupnot : ∀ {x : versionInterval V} {X' : VSet V} {y : versionInterval V}
          {Y' : VSet V}, NonEmptyIvs (x :: X') → List.Pairwise strictGap (x :: X') →
          NonEmptyIvs (y :: Y') → List.Pairwise strictGap (y :: Y') →
          LC x.lower = LC y.lower →
          (∀ c, cov (x :: X') c ↔ cov (y :: Y') c) →
          ¬UC x.upper < UC y.upper := by
        intro x X' y Y' hnex hpwx hney hpwy hl hcv hlt
        have hx : x.isEmpty = false := hnex x (List.mem_cons_self _ _)
        have hcb : covIn y (UC x.upper) := by
          refine ⟨?_, hlt⟩
          rw [← hl]
          exact le_of_lt (nonempty_lt hx)
        obtain ⟨z, hz, hcz⟩ := (hcv (UC x.upper)).mpr ⟨y, List.mem_cons_self _ _, hcb⟩
        rcases List.mem_cons.mp hz with rfl | hz'
        · exact lt_irrefl _ hcz.2
        · have hgap : strictGap x z := (List.pairwise_cons.mp hpwx).1 z hz'
          exact lt_irrefl _ (lt_of_le_of_lt hcz.1 hgap)
      have hup : UC a.upper = UC b.upper := by
        rcases lt_trichotomy (UC a.upper) (UC b.upper) with h | h | h
        · exact absurd h (hupnot hneA hpwA hneB hpwB hlow hcov)
        · exact h
        · exact absurd h (hupnot hneB hpwB hneA hpwA hlow.symm (fun c => (hcov c).symm))
      have hab : a = b := by
        have h1 : a.lower = b.lower := LC_injective hlow
        have h2 : a.upper = b.upper := UC_injective hup
        cases a
        cases b
        simp_all
      subst hab
      -- the tails cover the same cuts
      have hcov' : ∀ c, cov A' c ↔ cov B' c := by
        intro c
        constructor
        · intro hc
          obtain ⟨y, hy, hcy⟩ := hc
          have hgap : strictGap a y := (List.pairwise_cons.mp hpwA).1 y hy
          have hcna : ¬covIn a c := by
            rintro ⟨_, h2⟩
            exact lt_irrefl _ (lt_of_le_of_lt (le_trans (le_of_lt hgap) hcy.1) h2)
          have := (hcov c).mp (cov_cons.mpr (Or.inr ⟨y, hy, hcy⟩))
          rcases cov_cons.mp this with hca | hcB'
          · exact absurd hca hcna
          · exact hcB'
        · intro hc
          obtain ⟨y, hy, hcy⟩ := hc
          have hgap : strictGap a y := (List.pairwise_cons.mp hpwB).1 y hy
          have hcna : ¬covIn a c := by
            rintro ⟨_, h2⟩
            exact lt_irrefl _ (lt_of_le_of_lt (le_trans (le_of_lt hgap) hcy.1) h2)
          have := (hcov c).mpr (cov_cons.mpr (Or.inr ⟨y, hy, hcy⟩))
          rcases cov_cons.mp this with hca | hcA'
          · exact absurd hca hcna
          · exact hcA'
      have htail : A' = B' :=
        ih (fun y hy => hneA y (List.mem_cons_of_mem _ hy))
          (List.pairwise_cons.mp hpwA).2
          (fun y hy => hneB y (List.mem_cons_of_mem _ hy))
          (List.pairwise_cons.mp hpwB).2 hcov'
      rw [htail]

/-! ## Theorems: the set operations produce normalized results -/

theorem strictSep_normalized {s : VSet V} (h : StrictSep s) : Normalized s :=
  normalized_iff_cutGap.mpr ⟨h.1, h.2.imp strictGap_cutGap⟩

theorem normalized_nil : Normalized ([] : VSet V) :=
  normalized_iff_cutGap.mpr ⟨fun x hx => absurd hx (List.not_mem_nil x), List.Pairwise.nil⟩

theorem fullInterval_nonempty : (⟨.negInf, .posInf⟩ : versionInterval V).isEmpty = false := by
  rfl

theorem fullSet_strict : StrictSep (fullSet V) := by
  constructor
  · intro x hx
    rcases List.mem_singleton.mp hx with rfl
    exact fullInterval_nonempty
  · simp [fullSet]

theorem fullSet_normalized : Normalized (fullSet V) :=
  strictSep_normalized fullSet_strict

theorem cov_fullSet {c : Cut V} : cov (fullSet V) c ↔ c < ⊤ := by
  unfold fullSet
  rw [cov_cons, cov_nil, or_false]
  unfold covIn
  show LC (versionBound.negInf (V := V)) ≤ c ∧ c < UC (versionBound.posInf (V := V)) ↔ _
  simp [LC, UC]

theorem cov_lt_top {s : VSet V} {c : Cut V} (h : cov s c) : c < ⊤ := by
  obtain ⟨iv, _, hc⟩ := h
  exact lt_of_lt_of_le hc.2 le_top

theorem vsUnion_normalized (A B : VSet V) : Normalized (vsUnion A B) := by
  unfold vsUnion
  exact normalized_iff_cutGap.mpr ⟨(normalize_spec _).1, (normalize_spec _).2.1⟩

theorem vsUnion_cov (A B : VSet V) (c : Cut V) :
    cov (vsUnion A B) c ↔ cov A c ∨ cov B c := by
  unfold vsUnion
  rw [(normalize_spec _).2.2 c, cov_append]

theorem vsInter_normalized (A B : VSet V) : Normalized (vsInter A B) := by
  unfold vsInter
  split_ifs with h
  · exact normalized_nil
  · exact normalized_iff_cutGap.mpr ⟨(normalize_spec _).1, (normalize_spec _).2.1⟩

theorem vsInter_cov {A B : VSet V} (hA : Normalized A) (hB : Normalized B) (c : Cut V) :
    cov (vsInter A B) c ↔ cov A c ∧ cov B c := by
  obtain ⟨hneA, hpwA⟩ := normalized_iff_cutGap.mp hA
  obtain ⟨hneB, hpwB⟩ := normalized_iff_cutGap.mp hB
  unfold vsInter
  split_ifs with h
  · rw [cov_nil]
    constructor
    · intro hc
      exact hc.elim
    · rintro ⟨hca, hcb⟩
      rcases Bool.or_eq_true_iff.mp h with h' | h'
      · rw [List.isEmpty_iff.mp h'] at hca
        exact cov_nil.mp hca
      · rw [List.isEmpty_iff.mp h'] at hcb
        exact cov_nil.mp hcb
  · rw [(normalize_spec _).2.2 c, interSweep_cov A B hneA hpwA hneB hpwB c]

theorem vsCompl_normalized (s : VSet V) : Normalized (vsCompl s) := by
  unfold vsCompl
  split_ifs with h
  · exact fullSet_normalized
  · exact normalized_iff_cutGap.mpr ⟨(normalize_spec _).1, (normalize_spec _).2.1⟩

theorem vsCompl_cov {s : VSet V} (hs : Normalized s) (c : Cut V) :
    cov (vsCompl s) c ↔ c < ⊤ ∧ ¬cov s c := by
  obtain ⟨hne, hpw⟩ := normalized_iff_cutGap.mp hs
  unfold vsCompl
  split_ifs with h
  · rw [List.isEmpty_iff.mp h, cov_fullSet, cov_nil]
    simp
  · have hinv : ∀ y ∈ s, LC (versionBound.negInf (V := V)) ≤ UC y.upper :=
      fun y _ => bot_le
    rw [(normalize_spec _).2.2 c, complGaps_cov s .negInf hne hpw hinv c]
    show LC (versionBound.negInf (V := V)) ≤ c ∧ _ ↔ _
    simp [LC]

theorem vsCompl_strict {s : VSet V} (hs : Normalized s) : StrictSep (vsCompl s) := by
  obtain ⟨hne, hpw⟩ := normalized_iff_cutGap.mp hs
  unfold vsCompl
  split_ifs with h
  · exact fullSet_strict
  · have hinv : ∀ y ∈ s, LC (versionBound.negInf (V := V)) ≤ UC y.upper :=
      fun y _ => bot_le
    obtain ⟨h1, h2⟩ := complGaps_strict s .negInf hne hpw hinv
    have hN : Normalized (complGaps .negInf s) :=
      normalized_iff_cutGap.mpr ⟨h1, h2.imp strictGap_cutGap⟩
    rw [normalize_eq_self hN]
    exact ⟨h1, h2⟩

theorem vsInter_strict {A B : VSet V} (hA : StrictSep A) (hB : StrictSep B) :
    StrictSep (vsInter A B) := by
  obtain ⟨hneA, hpwA⟩ := hA
  obtain ⟨hneB, hpwB⟩ := hB
  unfold vsInter
  split_ifs with h
  · exact ⟨fun x hx => absurd hx (List.not_mem_nil x), List.Pairwise.nil⟩
  · obtain ⟨h1, h2⟩ := interSweep_chain A B hneA (hpwA.imp strictGap_cutGap)
      hneB (hpwB.imp strictGap_cutGap)
    have hstrict := interSweep_strict A B hneA hpwA hneB hpwB
    have hN : Normalized (interSweep A B) := normalized_iff_cutGap.mpr ⟨h1, h2⟩
    rw [normalize_eq_self hN]
    exact ⟨h1, hstrict⟩

/-! ## Theorems: identity and idempotence equations -/

theorem vsUnion_empty_right {A : VSet V} (hA : Normalized A) :
    vsUnion A (emptySet V) = A := by
  unfold vsUnion emptySet
  rw [List.append_nil, normalize_eq_self hA]

theorem intersect_full {a : versionInterval V} (ha : a.isEmpty = false) :
    intersectInterval a ⟨.negInf, .posInf⟩ = some a := by
  unfold intersectInterval
  show newInterval (cmax a.lower .negInf compareLower)
    (cmin a.upper .posInf compareUpper) = some a
  have hl : cmax a.lower (versionBound.negInf (V := V)) compareLower = a.lower := by
    unfold cmax
    exact if_pos (compareLower_nonneg_iff.mpr bot_le)
  have hu : cmin a.upper (versionBound.posInf (V := V)) compareUpper = a.upper := by
    unfold cmin
    refine if_pos (compareUpper_nonpos_iff.mpr ?_)
    show UC a.upper ≤ (⊤ : Cut V)
    exact le_top
  rw [hl, hu, newInterval_eq_some_iff]
  exact ⟨nonempty_lt ha, rfl⟩

theorem interSweep_full (A : VSet V) :
    NonEmptyIvs A → List.Pairwise cutGap A → interSweep A (fullSet V) = A := by
  induction A with
  | nil =>
    intro _ _
    rw [interSweep]
  | cons a as_ ih =>
    intro hne hpw
    have ha : a.isEmpty = false := hne a (List.mem_cons_self _ _)
    have hne' : NonEmptyIvs as_ := fun y hy => hne y (List.mem_cons_of_mem _ hy)
    have hpw' : List.Pairwise cutGap as_ := (List.pairwise_cons.mp hpw).2
    have hh : intersectInterval a ⟨.negInf, .posInf⟩ = some a := intersect_full ha
    show interSweep (a :: as_) (⟨.negInf, .posInf⟩ :: []) = a :: as_
    by_cases hadv : compareUpper a.upper (versionInterval.upper ⟨.negInf, .posInf⟩) < 0
    · rw [interSweep, if_pos hadv, hh]
      show [a] ++ interSweep as_ (fullSet V) = a :: as_
      rw [ih hne' hpw']
      rfl
    · cases has : as_ with
      | nil =>
        rw [interSweep, if_neg hadv, hh]
        show [a] ++ interSweep (a :: []) [] = a :: []
        rw [interSweep_nil_right, List.append_nil]
      | cons a1 as1 =>
        exfalso
        have htop : UC a.upper = ⊤ := by
          have h1 : ¬UC a.upper < (⊤ : Cut V) := by
            intro hc
            exact hadv (compareUpper_neg_iff.mpr hc)
          exact le_antisymm le_top (not_lt.mp h1)
        have hgap : cutGap a a1 := by
          have := (List.pairwise_cons.mp hpw).1 a1
          rw [has] at this
          exact this (List.mem_cons_self _ _)
        have ha1 : a1.isEmpty = false := by
          refine hne' a1 ?_
          rw [has]
          exact List.mem_cons_self _ _
        have h2 : (⊤ : Cut V) ≤ LC a1.lower := htop ▸ hgap
        exact absurd (lt_of_lt_of_le (nonempty_lt ha1) le_top) (not_lt.mpr h2)

theorem vsInter_full {A : VSet V} (hA : Normalized A) : vsInter A (fullSet V) = A := by
  obtain ⟨hne, hpw⟩ := normalized_iff_cutGap.mp hA
  unfold vsInter
  split_ifs with h
  · rcases Bool.or_eq_true_iff.mp h with h' | h'
    · exact (List.isEmpty_iff.mp h').symm
    · exact absurd h' (by simp [fullSet])
  · rw [interSweep_full A hne hpw, normalize_eq_self hA]

theorem interSweep_cons_tail {a : versionInterval V} {as_ : VSet V}
    (hne : NonEmptyIvs (a :: as_)) (hpw : List.Pairwise cutGap (a :: as_)) :
    interSweep (a :: as_) as_ = interSweep as_ as_ := by
  cases as_ with
  | nil => rw [interSweep_nil_right, interSweep]
  | cons b as1 =>
    have hb : b.isEmpty = false := hne b (List.mem_cons_of_mem _ (List.mem_cons_self _ _))
    have hgap : cutGap a b := (List.pairwise_cons.mp hpw).1 b (List.mem_cons_self _ _)
    have hh : intersectInterval a b = none := by
      unfold intersectInterval
      rw [newInterval_eq_none_iff, LC_cmax, UC_cmin]
      intro hc
      have h1 : LC b.lower < UC a.upper :=
        lt_of_le_of_lt (le_max_right _ _) (lt_of_lt_of_le hc (min_le_left _ _))
      exact absurd h1 (not_lt_of_le hgap)
    have hadv : compareUpper a.upper b.upper < 0 :=
      compareUpper_neg_iff.mpr (lt_of_le_of_lt hgap (nonempty_lt hb))
    rw [interSweep, if_pos hadv, hh]
    show ([] : VSet V) ++ interSweep (b :: as1) (b :: as1) = _
    rw [List.nil_append]

theorem interSweep_self (A : VSet V) :
    NonEmptyIvs A → List.Pairwise cutGap A → interSweep A A = A := by
  induction A with
  | nil =>
    intro _ _
    rw [interSweep]
  | cons a as_ ih =>
    intro hne hpw
    have ha : a.isEmpty = false := hne a (List.mem_cons_self _ _)
    have hne' : NonEmptyIvs as_ := fun y hy => hne y (List.mem_cons_of_mem _ hy)
    have hpw' : List.Pairwise cutGap as_ := (List.pairwise_cons.mp hpw).2
    have hh : intersectInterval a a = some a := by
      unfold intersectInterval
      have hl : cmax a.lower a.lower compareLower = a.lower := by
        unfold cmax
        split_ifs <;> rfl
      have hu : cmin a.upper a.upper compareUpper = a.upper := by
        unfold cmin
        split_ifs <;> rfl
      rw [hl, hu, newInterval_eq_some_iff]
      exact ⟨nonempty_lt ha, rfl⟩
    have hadv : ¬compareUpper a.upper a.upper < 0 := by
      rw [compareUpper_neg_iff]
      exact lt_irrefl _
    rw [interSweep, if_neg hadv, hh]
    show [a] ++ interSweep (a :: as_) as_ = a :: as_
    rw [interSweep_cons_tail hne hpw, ih hne' hpw']
    rfl

theorem vsInter_self {A : VSet V} (hA : Normalized A) : vsInter A A = A := by
  obtain ⟨hne, hpw⟩ := normalized_iff_cutGap.mp hA
  unfold vsInter
  split_ifs with h
  · have h' : A.isEmpty = true := by
      rcases Bool.or_eq_true_iff.mp h with h' | h' <;> exact h'
    exact (List.isEmpty_iff.mp h').symm
  · rw [interSweep_self A hne hpw, normalize_eq_self hA]

/-! ## Theorems: union idempotence -/

theorem all_eq_middle {α : Type} {a : α} :
    ∀ {u v : List α}, (∀ x ∈ u, x = a) → a :: (u ++ v) = u ++ a :: v := by
  intro u
  induction u with
  | nil =>
    intro v _
    rfl
  | cons x u' ih =>
    intro v hall
    have hx : x = a := hall x (List.mem_cons_self _ _)
    subst hx
    show x :: (x :: u' ++ v) = x :: (u' ++ x :: v)
    rw [← ih (fun y hy => hall y (List.mem_cons_of_mem _ hy))]
    rfl

theorem sorted_perm_eq {α : Type} {r : α → α → Prop} :
    ∀ {l₁ l₂ : List α}, l₁.Perm l₂ → List.Pairwise r l₁ → List.Pairwise r l₂ →
    (∀ a ∈ l₂, ∀ b ∈ l₂, r a b → r b a → a = b) → l₁ = l₂ := by
  intro l₁
  induction l₁ with
  | nil =>
    intro l₂ hp _ _ _
    exact hp.nil_eq
  | cons a t ih =>
    intro l₂ hp hs₁ hs₂ hanti
    have ha : a ∈ l₂ := hp.subset (List.mem_cons_self _ _)
    obtain ⟨u₂, v₂, rfl⟩ := List.append_of_mem ha
    have hp' : t.Perm (u₂ ++ v₂) :=
      (List.perm_cons a).mp (hp.trans List.perm_middle)
    have hs₂' : List.Pairwise r (u₂ ++ v₂) :=
      hs₂.sublist ((List.sublist_cons_self a v₂).append_left u₂)
    have ht : t = u₂ ++ v₂ := by
      refine ih hp' (List.pairwise_cons.mp hs₁).2 hs₂' ?_
      intro x hx y hy
      have hx2 : x ∈ u₂ ++ a :: v₂ := by
        rcases List.mem_append.mp hx with h | h
        · exact List.mem_append.mpr (Or.inl h)
        · exact List.mem_append.mpr (Or.inr (List.mem_cons_of_mem _ h))
      have hy2 : y ∈ u₂ ++ a :: v₂ := by
        rcases List.mem_append.mp hy with h | h
        · exact List.mem_append.mpr (Or.inl h)
        · exact List.mem_append.mpr (Or.inr (List.mem_cons_of_mem _ h))
      exact hanti x hx2 y hy2
    subst ht
    have hall : ∀ x ∈ u₂, x = a := by
      intro x hx
      have hxa : r x a := by
        have := (List.pairwise_append.mp hs₂).2.2
        exact this x hx a (List.mem_cons_self _ _)
      have hax : r a x := by
        have := (List.pairwise_cons.mp hs₁).1
        exact this x (List.mem_append.mpr (Or.inl hx))
      refine hanti x ?_ a ?_ hxa hax
      · exact List.mem_append.mpr (Or.inl hx)
      · exact List.mem_append.mpr (Or.inr (List.mem_cons_self _ _))
    exact all_eq_middle hall

theorem mem_dupEach {x : versionInterval V} :
    ∀ {l : VSet V}, x ∈ dupEach l ↔ x ∈ l := by
  intro l
  induction l with
  | nil =>
    rw [dupEach]
  | cons a l' ih =>
    rw [dupEach]
    constructor
    · intro hx
      rcases List.mem_cons.mp hx with rfl | hx'
      · exact List.mem_cons_self _ _
      · rcases List.mem_cons.mp hx' with rfl | hx''
        · exact List.mem_cons_self _ _
        · exact List.mem_cons_of_mem _ (ih.mp hx'')
    · intro hx
      rcases List.mem_cons.mp hx with rfl | hx'
      · exact List.mem_cons_self _ _
      · exact List.mem_cons_of_mem _ (List.mem_cons_of_mem _ (ih.mpr hx'))

theorem dupEach_perm : ∀ {A : VSet V}, (dupEach A).Perm (A ++ A) := by
  intro A
  induction A with
  | nil =>
    rw [dupEach]
    exact List.Perm.refl _
  | cons a A' ih =>
    rw [dupEach]
    show (a :: a :: dupEach A').Perm ((a :: A') ++ (a :: A'))
    show (a :: a :: dupEach A').Perm (a :: (A' ++ a :: A'))
    refine List.Perm.cons a ?_
    exact (ih.cons a).trans List.perm_middle.symm

theorem normalized_lowers_lt {A : VSet V} (hA : Normalized A) :
    List.Pairwise (fun x y : versionInterval V => LC x.lower < LC y.lower) A := by
  obtain ⟨hne, hpw⟩ := normalized_iff_cutGap.mp hA
  refine hpw.imp_of_mem ?_
  intro a b hma _ hab
  exact lt_of_lt_of_le (nonempty_lt (hne a hma)) hab

theorem normalized_lower_inj {A : VSet V} (hA : Normalized A) :
    ∀ a ∈ A, ∀ b ∈ A, LC a.lower = LC b.lower → a = b := by
  intro a hma b hmb heq
  by_contra hne
  have hpw : List.Pairwise (fun x y : versionInterval V => LC x.lower ≠ LC y.lower) A :=
    (normalized_lowers_lt hA).imp (fun h => ne_of_lt h)
  have hsym : Symmetric (fun x y : versionInterval V => LC x.lower ≠ LC y.lower) :=
    fun x y h => h.symm
  exact hpw.forall hsym hma hmb hne heq

theorem dupEach_sorted_of_lt :
    ∀ {A : VSet V}, List.Pairwise (fun x y : versionInterval V => LC x.lower < LC y.lower) A →
    List.Pairwise lowerLE (dupEach A) := by
  intro A
  induction A with
  | nil =>
    intro _
    rw [dupEach]
    exact List.Pairwise.nil
  | cons a A' ih =>
    intro hlt
    rw [dupEach]
    have hhead : ∀ y ∈ A', LC a.lower < LC y.lower := (List.pairwise_cons.mp hlt).1
    have htail := ih (List.pairwise_cons.mp hlt).2
    rw [List.pairwise_cons]
    constructor
    · intro y hy
      rcases List.mem_cons.mp hy with rfl | hy'
      · exact lowerLE_iff.mpr (le_refl _)
      · exact lowerLE_iff.mpr (le_of_lt (hhead y (mem_dupEach.mp hy')))
    · rw [List.pairwise_cons]
      refine ⟨?_, htail⟩
      intro y hy
      exact lowerLE_iff.mpr (le_of_lt (hhead y (mem_dupEach.mp hy)))

theorem dupEach_sorted {A : VSet V} (hA : Normalized A) :
    List.Pairwise lowerLE (dupEach A) :=
  dupEach_sorted_of_lt (normalized_lowers_lt hA)

theorem merge_self {b : versionInterval V} : b.merge b = b := by
  unfold versionInterval.merge cmin cmax
  split_ifs <;> rfl

theorem mergeSweep_dup :
    ∀ {A' : VSet V} {a : versionInterval V}, Normalized (a :: A') →
    mergeSweep a (dupEach A') = a :: A' := by
  intro A'
  induction A' with
  | nil =>
    intro a _
    rw [dupEach, mergeSweep]
  | cons b A'' ih =>
    intro a hN
    obtain ⟨hne, hpw⟩ := hN
    have ha : a.isEmpty = false := hne a (List.mem_cons_self _ _)
    have hb : b.isEmpty = false := hne b (List.mem_cons_of_mem _ (List.mem_cons_self _ _))
    have hgapab : gapTo a b := (List.pairwise_cons.mp hpw).1 b (List.mem_cons_self _ _)
    have htab : ¬(a.touches b = true) := by
      intro hc
      have h1 := ((touches_iff ha hb).mp hc).1
      have h2 := (ULL_iff_of_nonempty ha hb).mp hgapab
      exact absurd h1 (not_lt_of_le h2)
    have htbb : b.touches b = true := by
      rw [touches_iff hb hb]
      exact ⟨nonempty_lt hb, nonempty_lt hb⟩
    rw [dupEach, mergeSweep, if_neg htab, mergeSweep, if_pos htbb, merge_self]
    have hN' : Normalized (b :: A'') :=
      ⟨fun y hy => hne y (List.mem_cons_of_mem _ hy), (List.pairwise_cons.mp hpw).2⟩
    rw [ih hN']

theorem vsUnion_self {A : VSet V} (hA : Normalized A) : vsUnion A A = A := by
  haveI ht : IsTotal (versionInterval V) lowerLE := ⟨fun a b => by
    rw [lowerLE_iff, lowerLE_iff]
    exact le_total _ _⟩
  haveI htr : IsTrans (versionInterval V) lowerLE := ⟨fun a b c hab hbc => by
    rw [lowerLE_iff] at hab hbc ⊢
    exact le_trans hab hbc⟩
  have hne := hA.1
  have hpw := hA.2
  unfold vsUnion
  have hfilter : (A ++ A).filter (fun iv => !iv.isEmpty) = A ++ A := by
    rw [List.filter_eq_self]
    intro x hx
    rcases List.mem_append.mp hx with h | h <;> simpa using hne x h
  have hsort : (A ++ A).insertionSort lowerLE = dupEach A := by
    refine sorted_perm_eq ((List.perm_insertionSort lowerLE _).trans dupEach_perm.symm)
      ((List.sorted_insertionSort lowerLE _) : List.Pairwise lowerLE _)
      (dupEach_sorted hA) ?_
    intro x hx y hy hxy hyx
    refine normalized_lower_inj hA x (mem_dupEach.mp hx) y (mem_dupEach.mp hy) ?_
    exact le_antisymm (lowerLE_iff.mp hxy) (lowerLE_iff.mp hyx)
  unfold normalizeIntervals
  rw [hfilter, hsort]
  cases hAs : A with
  | nil => rw [dupEach]
  | cons a A' =>
    rw [dupEach]
    show mergeSweep a (a :: dupEach A') = a :: A'
    rw [hAs] at hne hpw
    have ha : a.isEmpty = false := hne a (List.mem_cons_self _ _)
    have htaa : a.touches a = true := by
      rw [touches_iff ha ha]
      exact ⟨nonempty_lt ha, nonempty_lt ha⟩
    rw [mergeSweep, if_pos htaa, merge_self]
    exact mergeSweep_dup ⟨hne, hpw⟩

/-! ## Theorems: De Morgan and involution -/

theorem vsCompl_vsUnion_deMorgan {A B : VSet V} (hA : Normalized A) (hB : Normalized B) :
    vsCompl (vsUnion A B) = vsInter (vsCompl A) (vsCompl B) := by
  have hU := vsUnion_normalized A B
  have hsL := vsCompl_strict hU
  have hsA := vsCompl_strict hA
  have hsB := vsCompl_strict hB
  have hsR := vsInter_strict hsA hsB
  refine strict_unique hsL.1 hsL.2 hsR.1 hsR.2 ?_
  intro c
  rw [vsCompl_cov hU c, vsInter_cov (strictSep_normalized hsA) (strictSep_normalized hsB) c,
    vsCompl_cov hA c, vsCompl_cov hB c, vsUnion_cov A B c]
  tauto

theorem vsCompl_involution {A : VSet V} (hA : StrictSep A) : vsCompl (vsCompl A) = A := by
  have hnA := strictSep_normalized hA
  have hsC := vsCompl_strict hnA
  have hsCC := vsCompl_strict (strictSep_normalized hsC)
  refine strict_unique hsCC.1 hsCC.2 hA.1 hA.2 ?_
  intro c
  rw [vsCompl_cov (strictSep_normalized hsC) c, vsCompl_cov hnA c]
  constructor
  · rintro ⟨h1, h2⟩
    by_contra hc
    exact h2 ⟨h1, hc⟩
  · intro hc
    refine ⟨cov_lt_top hc, ?_⟩
    rintro ⟨_, h2⟩
    exact h2 hc

theorem normalized_props {s : VSet V} (h : Normalized s) : NormalProps s := by
  obtain ⟨hne, hpw⟩ := normalized_iff_cutGap.mp h
  refine ⟨hne, ?_, ?_, ?_⟩
  · exact (normalized_lowers_lt h).imp (fun hr => compareLower_neg_iff.mpr hr)
  · refine hpw.imp_of_mem ?_
    intro a b hma hmb hab
    cases hov : a.overlaps b with
    | false => rfl
    | true =>
      have := ((overlaps_iff (hne a hma) (hne b hmb)).mp hov).1
      exact absurd this (not_lt_of_le hab)
  · refine hpw.imp_of_mem ?_
    intro a b hma hmb hab
    rw [touches_eq_overlaps]
    cases hov : a.overlaps b with
    | false => rfl
    | true =>
      have := ((overlaps_iff (hne a hma) (hne b hmb)).mp hov).1
      exact absurd this (not_lt_of_le hab)

/-! ## Claims C3 and C4 -/

/-- C3 (counterexample): the union of the sets `[1, 2)` and `[2, 3]`
(versions modelled by integers) is not the single interval `[1, 3]`: the
code's `touches` treats the half-open adjacency at `2` as a gap and keeps
the two intervals separate, contradicting the claimed notion of touching
("adjacent with compatible inclusivity"). -/
theorem claim_C3_counterexample :
    vsUnion [(⟨.finite (1 : Int) true, .finite 2 false⟩ : versionInterval Int)]
      [⟨.finite 2 true, .finite 3 true⟩] ≠
      [⟨.finite (1 : Int) true, .finite 3 true⟩] := by
  decide

/-- C3 (amended): for all interval lists `A` and `B`, the results of
`Union`, `Intersection` and `Complement` are in normalized form: non-empty
intervals, sorted strictly ascending by lower bound, pairwise disjoint, and
with no two intervals touching in the code's sense (`touches`, which merges
only intervals sharing a position: an interval pair abutting with
complementary inclusivity, such as `[1, 2)` and `[2, 3]`, is kept
separate). -/
theorem claim_C3_normal_form {V : Type} [LinearOrder V] (A B : VSet V) :
    NormalProps (vsUnion A B) ∧ NormalProps (vsInter A B) ∧ NormalProps (vsCompl A) :=
  ⟨normalized_props (vsUnion_normalized A B),
    normalized_props (vsInter_normalized A B),
    normalized_props (vsCompl_normalized A)⟩

/-- C4 (counterexample): involution fails on a normalized set with two
abutting intervals: with `A = [1, 2) ∪ [2, 3)` (built by `Union`, which
keeps the two intervals separate), `Complement (Complement A)` merges them
into `[1, 3)` and so differs from `A`. -/
theorem claim_C4_counterexample :
    vsCompl (vsCompl (vsUnion
        [(⟨.finite (1 : Int) true, .finite 2 false⟩ : versionInterval Int)]
        [⟨.finite 2 true, .finite 3 false⟩])) ≠
      vsUnion [(⟨.finite (1 : Int) true, .finite 2 false⟩ : versionInterval Int)]
        [⟨.finite 2 true, .finite 3 false⟩] := by
  decide

/-- C4 (amended): for all normalized sets `A` and `B`, De Morgan
(`¬(A ∪ B) = ¬A ∩ ¬B`), idempotence (`A ∪ A = A`, `A ∩ A = A`) and identity
(`A ∪ ∅ = A`, `A ∩ full = A`) hold; involution (`¬¬A = A`) holds for every
normalized set whose intervals are strictly separated (no interval abuts
the next), which includes every `Complement` or `Intersection` result — for
a set with abutting intervals, double complementation merges them. -/
theorem claim_C4_algebra {V : Type} [LinearOrder V] (A B : VSet V)
    (hA : Normalized A) (hB : Normalized B) :
    vsCompl (vsUnion A B) = vsInter (vsCompl A) (vsCompl B) ∧
    vsUnion A A = A ∧
    vsInter A A = A ∧
    (StrictSep A → vsCompl (vsCompl A) = A) ∧
    vsUnion A (emptySet V) = A ∧
    vsInter A (fullSet V) = A :=
  ⟨vsCompl_vsUnion_deMorgan hA hB, vsUnion_self hA, vsInter_self hA,
    fun hs => vsCompl_involution hs, vsUnion_empty_right hA, vsInter_full hA⟩

/-- C4 (witness): the amended algebra laws evaluated at the concrete sets
`A = [1, 2) ∪ [3, 4)` and `B = [2, 3]` over integer versions. -/
theorem claim_C4_algebra_witness :
    (vsCompl (vsUnion
        [(⟨.finite (1 : Int) true, .finite 2 false⟩ : versionInterval Int),
          ⟨.finite 3 true, .finite 4 false⟩]
        [⟨.finite 2 true, .finite 3 true⟩]) =
      vsInter
        (vsCompl [(⟨.finite (1 : Int) true, .finite 2 false⟩ : versionInterval Int),
          ⟨.finite 3 true, .finite 4 false⟩])
        (vsCompl [⟨.finite 2 true, .finite 3 true⟩])) ∧
    (vsUnion [(⟨.finite (1 : Int) true, .finite 2 false⟩ : versionInterval Int),
        ⟨.finite 3 true, .finite 4 false⟩]
      [(⟨.finite (1 : Int) true, .finite 2 false⟩ : versionInterval Int),
        ⟨.finite 3 true, .finite 4 false⟩] =
      [(⟨.finite (1 : Int) true, .finite 2 false⟩ : versionInterval Int),
        ⟨.finite 3 true, .finite 4 false⟩]) ∧
    (vsCompl (vsCompl [(⟨.finite (1 : Int) true, .finite 2 false⟩ : versionInterval Int),
        ⟨.finite 3 true, .finite 4 false⟩]) =
      [(⟨.finite (1 : Int) true, .finite 2 false⟩ : versionInterval Int),
        ⟨.finite 3 true, .finite 4 false⟩]) := by
  have h := claim_C4_algebra
    [(⟨.finite (1 : Int) true, .finite 2 false⟩ : versionInterval Int),
      ⟨.finite 3 true, .finite 4 false⟩]
    [⟨.finite 2 true, .finite 3 true⟩] (by decide) (by decide)
  exact ⟨h.1, h.2.1, h.2.2.2.1 (by decide)⟩

/-- C10: a `nil` version satisfies a term exactly when the term is negative,
regardless of its condition. -/
theorem claim_C10_satisfiedBy_nil (t : Term V) :
    t.satisfiedBy none = !t.positive :=
  rfl

/-- A dependency of a package on itself yields a dependency incompatibility
whose two terms carry the same package name: `NewIncompatibilityFromDependency`
never deduplicates. -/
theorem claim_C7_counterexample :
    ¬ (((NewIncompatibilityFromDependency "A" (some (1 : Int))
        (NewTerm "A" (some (Cond.equals (some 1))))).terms.map Term.name).Nodup) := by
  decide

/-- The name-deduplication loop keeps the first term per name: its output
avoids `seen`, has pairwise distinct names, is a sublist of the input, and
finds the same first term per fresh name as the input does. -/
theorem dedupTermsByName_spec :
    ∀ (l : List (Term V)) (seen : List String),
      (∀ t ∈ dedupTermsByName seen l, t.name ∉ seen) ∧
      ((dedupTermsByName seen l).map Term.name).Nodup ∧
      (dedupTermsByName seen l).Sublist l ∧
      (∀ n : String, n ∉ seen →
        (dedupTermsByName seen l).find? (fun t => t.name == n) =
          l.find? (fun t => t.name == n)) := by
  intro l
  induction l with
  | nil =>
    intro seen
    refine ⟨?_, ?_, ?_, ?_⟩ <;> simp [dedupTermsByName]
  | cons t rest ih =>
    intro seen
    by_cases hs : t.name ∈ seen
    · have hd : dedupTermsByName seen (t :: rest) = dedupTermsByName seen rest := by
        simp [dedupTermsByName, hs]
      obtain ⟨h1, h2, h3, h4⟩ := ih seen
      rw [hd]
      refine ⟨h1, h2, h3.trans (List.sublist_cons_self _ _), ?_⟩
      intro n hn
      have hpt : ¬ ((t.name == n) = true) := by
        intro hb
        exact hn (beq_iff_eq.mp hb ▸ hs)
      rw [h4 n hn,
        List.find?_cons_of_neg (p := fun x : Term V => x.name == n) (a := t) _ hpt]
    · have hd : dedupTermsByName seen (t :: rest) =
          t :: dedupTermsByName (t.name :: seen) rest := by
        simp [dedupTermsByName, hs]
      obtain ⟨h1, h2, h3, h4⟩ := ih (t.name :: seen)
      rw [hd]
      refine ⟨?_, ?_, ?_, ?_⟩
      · intro x hx
        rcases List.mem_cons.mp hx with rfl | hx'
        · exact hs
        · intro hmem
          exact (h1 x hx') (List.mem_cons_of_mem _ hmem)
      · rw [List.map_cons, List.nodup_cons]
        refine ⟨?_, h2⟩
        intro hmem
        rw [List.mem_map] at hmem
        obtain ⟨x, hx, hxe⟩ := hmem
        refine (h1 x hx) ?_
        rw [hxe]
        exact List.mem_cons_self _ _
      · exact h3.cons₂ t
      · intro n hn
        by_cases he : t.name = n
        · have hpt : (t.name == n) = true := beq_iff_eq.mpr he
          rw [List.find?_cons_of_pos (p := fun x : Term V => x.name == n) (a := t) _ hpt,
            List.find?_cons_of_pos (p := fun x : Term V => x.name == n) (a := t) _ hpt]
        · have hpt : ¬ ((t.name == n) = true) :=
            fun hb => he (beq_iff_eq.mp hb)
          rw [List.find?_cons_of_neg (p := fun x : Term V => x.name == n) (a := t) _ hpt,
            List.find?_cons_of_neg (p := fun x : Term V => x.name == n) (a := t) _ hpt]
          refine h4 n ?_
          intro hmem
          rcases List.mem_cons.mp hmem with h | h
          · exact he h.symm
          · exact hn h

/-- C7 (amended): `NewIncompatibilityNoVersions` has one term;
`NewIncompatibilityConflict` deduplicates by name, keeping the first term
per name (its terms have pairwise distinct names, form a sublist of the
input, and agree with the input on the first term found per name);
`NewIncompatibilityFromDependency` performs NO deduplication: its terms are
exactly the package term and the negated dependency, and their names are
distinct iff the dependency names a different package (a self-dependency
violates the claimed invariant, see the counterexample). -/
theorem claim_C7_constructors :
    (∀ t : Term V, (NewIncompatibilityNoVersions t).terms = [t]) ∧
    (∀ (terms : List (Term V)) (c1 c2 : Option (Incomp V)),
      (NewIncompatibilityConflict terms c1 c2).terms = dedupTermsByName [] terms ∧
      ((NewIncompatibilityConflict terms c1 c2).terms.map Term.name).Nodup ∧
      (NewIncompatibilityConflict terms c1 c2).terms.Sublist terms ∧
      ∀ n : String,
        (NewIncompatibilityConflict terms c1 c2).terms.find? (fun t => t.name == n) =
          terms.find? (fun t => t.name == n)) ∧
    (∀ (pkg : String) (ver : Option V) (dep : Term V),
      (NewIncompatibilityFromDependency pkg ver dep).terms =
        [NewTerm pkg (some (Cond.equals ver)), dep.negate] ∧
      (((NewIncompatibilityFromDependency pkg ver dep).terms.map Term.name).Nodup ↔
        dep.name ≠ pkg)) := by
  refine ⟨fun t => rfl, ?_, ?_⟩
  · intro terms c1 c2
    obtain ⟨h1, h2, h3, h4⟩ := dedupTermsByName_spec terms []
    exact ⟨rfl, h2, h3, fun n => h4 n (List.not_mem_nil n)⟩
  · intro pkg ver dep
    refine ⟨rfl, ?_⟩
    show ([NewTerm pkg (some (Cond.equals ver)), dep.negate].map Term.name).Nodup ↔
      dep.name ≠ pkg
    simp [NewTerm, Term.negate]
    exact ne_comm

/-- C9: a catalog failure of kind package-not-found or version-not-found in
the decision path yields the fabricated `NoVersions` conflict, never a fatal
error; a failure of any other kind is surfaced as fatal (when the allowed
set is non-empty, so that the catalog is actually consulted). -/
theorem claim_C9_catalog_errors (ps : PartSol V) (pkg : String) :
    decisionStep ps pkg (Except.error SourceErr.pkgNotFound) =
      DecideOutcome.conflict (fabricateNoVersions ps pkg) ∧
    decisionStep ps pkg (Except.error SourceErr.pkgVersionNotFound) =
      DecideOutcome.conflict (fabricateNoVersions ps pkg) ∧
    (∀ msg : String, vsIsEmpty (ps.allowedSet pkg) = false →
      decisionStep ps pkg (Except.error (SourceErr.other msg)) =
        DecideOutcome.fatalErr (SourceErr.other msg)) := by
  refine ⟨?_, ?_, ?_⟩
  · cases h : vsIsEmpty (ps.allowedSet pkg) <;> simp [decisionStep, pickVersion, h]
  · cases h : vsIsEmpty (ps.allowedSet pkg) <;> simp [decisionStep, pickVersion, h]
  · intro msg h
    simp [decisionStep, pickVersion, h]

/-- C9 (witness): in a fresh partial solution the allowed set is full, and a
catalog failure of "other" kind surfaces as fatal. -/
theorem claim_C9_witness :
    vsIsEmpty ((newPartialSolution (V := Int) "root").allowedSet "a") = false ∧
    decisionStep (newPartialSolution (V := Int) "root") "a"
        (Except.error (SourceErr.other "io failure")) =
      DecideOutcome.fatalErr (SourceErr.other "io failure") :=
  ⟨by decide,
    (claim_C9_catalog_errors (newPartialSolution "root") "a").2.2 "io failure" (by decide)⟩

/-- A `find?` over a descending list returns a maximal element among those
satisfying the predicate. -/
theorem find_desc_max (p : V → Bool) :
    ∀ l : List V, List.Pairwise (fun a b => b ≤ a) l →
      ∀ v : V, l.find? p = some v →
        p v = true ∧ v ∈ l ∧ ∀ x ∈ l, p x = true → x ≤ v := by
  intro l
  induction l with
  | nil =>
    intro _ v hv
    simp at hv
  | cons a rest ih =>
    intro hpw v hv
    obtain ⟨hle, hpw'⟩ := List.pairwise_cons.mp hpw
    by_cases hpa : p a = true
    · rw [List.find?_cons_of_pos _ hpa] at hv
      injection hv with hv
      subst hv
      refine ⟨hpa, List.mem_cons_self _ _, ?_⟩
      intro x hx _
      rcases List.mem_cons.mp hx with rfl | hx'
      · exact le_refl _
      · exact hle x hx'
    · rw [List.find?_cons_of_neg _ hpa] at hv
      obtain ⟨h1, h2, h3⟩ := ih hpw' v hv
      refine ⟨h1, List.mem_cons_of_mem _ h2, ?_⟩
      intro x hx hpx
      rcases List.mem_cons.mp hx with rfl | hx'
      · exact absurd hpx hpa
      · exact h3 x hx' hpx

/-- C1: when the catalog's versions are sorted ascending and `pickVersion`
decides on `v`, then `v` is contained in the allowed set, appears in the
catalog's list, and is the maximum listed version the allowed set contains. -/
theorem claim_C1_pickVersion_max (allowed : VSet V) (versions : List V) (v : V)
    (hsorted : List.Pairwise (fun a b => a ≤ b) versions)
    (hpick : pickVersion (some allowed) (Except.ok versions) = PickResult.found v) :
    vsContains allowed v = true ∧ v ∈ versions ∧
      ∀ x ∈ versions, vsContains allowed x = true → x ≤ v := by
  simp only [pickVersion] at hpick
  by_cases he : vsIsEmpty allowed = true
  · rw [if_pos he] at hpick
    exact PickResult.noConfusion hpick
  · rw [if_neg he] at hpick
    cases hfind : versions.reverse.find? (fun x => vsContains allowed x) with
    | none =>
      rw [hfind] at hpick
      exact PickResult.noConfusion hpick
    | some w =>
      rw [hfind] at hpick
      injection hpick with hw
      subst hw
      have hdesc : List.Pairwise (fun a b : V => b ≤ a) versions.reverse :=
        List.pairwise_reverse.mpr hsorted
      obtain ⟨h1, h2, h3⟩ :=
        find_desc_max (fun x => vsContains allowed x) versions.reverse hdesc w hfind
      exact ⟨h1, List.mem_reverse.mp h2,
        fun x hx hpx => h3 x (List.mem_reverse.mpr hx) hpx⟩

/-- C1 (witness): over integer versions with allowed set `[1, 3]` and
catalog list `[1, 2, 3, 4]`, the decided version `3` is contained, listed,
and maximal among the contained listed versions. -/
theorem claim_C1_witness :
    vsContains [(⟨versionBound.finite (1 : Int) true, versionBound.finite 3 true⟩ :
        versionInterval Int)] 3 = true ∧
    (3 : Int) ∈ [(1 : Int), 2, 3, 4] ∧
    ∀ x ∈ [(1 : Int), 2, 3, 4],
      vsContains [(⟨versionBound.finite (1 : Int) true, versionBound.finite 3 true⟩ :
        versionInterval Int)] x = true → x ≤ 3 :=
  claim_C1_pickVersion_max
    [(⟨versionBound.finite (1 : Int) true, versionBound.finite 3 true⟩ :
      versionInterval Int)]
    [(1 : Int), 2, 3, 4] 3 (by decide) (by decide)

/-- C8: for a term whose condition converts to the set `S`, `addDerivation`
reports `NoAllowedVersions` exactly when the current allowed set intersected
with `S` (positive term) or with the complement of `S` (negative term) is
empty, and on that error the partial solution is unchanged and no
assignment is produced. -/
theorem claim_C8_addDerivation (ps : PartSol V) (t : Term V) (cause : Option (Incomp V))
    (S : VSet V)
    (hconv : (if t.positive then termAllowedSet t else termForbiddenSet t) = some S) :
    ((ps.addDerivation t cause).err = some DerivErr.noAllowedVersions ↔
      vsIsEmpty (vsInter (ps.allowedSet t.name)
        (if t.positive then S else vsCompl S)) = true) ∧
    ((ps.addDerivation t cause).err = some DerivErr.noAllowedVersions →
      (ps.addDerivation t cause).ps = ps ∧ (ps.addDerivation t cause).assign = none) := by
  cases hp : t.positive with
  | true =>
    rw [if_pos hp] at hconv
    rw [if_pos (rfl : (true : Bool) = true)]
    have happly : applyTermToAllowed (ps.allowedSet t.name) t =
        some (vsInter (ps.allowedSet t.name) S) := by
      unfold applyTermToAllowed
      rw [if_pos hp, hconv]
      rfl
    by_cases hE : vsIsEmpty (vsInter (ps.allowedSet t.name) S) = true
    · simp only [PartSol.addDerivation, happly]
      rw [if_pos hE]
      simp [hE]
    · simp only [PartSol.addDerivation, happly]
      rw [if_neg hE]
      rw [if_pos hp]
      simp [hE]
  | false =>
    have hnp : ¬ (t.positive = true) := by simp [hp]
    rw [if_neg hnp] at hconv
    rw [if_neg (by simp : ¬ ((false : Bool) = true))]
    have happly : applyTermToAllowed (ps.allowedSet t.name) t =
        some (vsInter (ps.allowedSet t.name) (vsCompl S)) := by
      unfold applyTermToAllowed
      rw [if_neg hnp, hconv]
      rfl
    by_cases hE : vsIsEmpty (vsInter (ps.allowedSet t.name) (vsCompl S)) = true
    · simp only [PartSol.addDerivation, happly]
      rw [if_pos hE]
      simp [hE]
    · simp only [PartSol.addDerivation, happly]
      rw [if_neg hE]
      rw [if_neg hnp]
      simp only [hconv]
      refine ⟨?_, ?_⟩ <;> split <;> simp [hE]

/-- C8 (witness): deriving the negative term forbidding everything from a
fresh partial solution empties the allowed set, reports
`NoAllowedVersions`, and leaves the solution unchanged. -/
theorem claim_C8_witness :
    ((if (NewNegativeTerm "a" (some (Cond.vset (some (fullSet Int))))).positive
        then termAllowedSet (NewNegativeTerm "a" (some (Cond.vset (some (fullSet Int)))))
        else termForbiddenSet
          (NewNegativeTerm "a" (some (Cond.vset (some (fullSet Int)))))) =
      some (fullSet Int)) ∧
    ((newPartialSolution (V := Int) "root").addDerivation
        (NewNegativeTerm "a" (some (Cond.vset (some (fullSet Int))))) none).err =
      some DerivErr.noAllowedVersions ∧
    ((newPartialSolution (V := Int) "root").addDerivation
        (NewNegativeTerm "a" (some (Cond.vset (some (fullSet Int))))) none).ps =
      newPartialSolution (V := Int) "root" := by
  have h := claim_C8_addDerivation (newPartialSolution (V := Int) "root")
    (NewNegativeTerm "a" (some (Cond.vset (some (fullSet Int))))) none (fullSet Int)
    (by decide)
  refine ⟨by decide, ?_, ?_⟩
  · exact h.1.mpr (by decide)
  · exact (h.2 (h.1.mpr (by decide))).1

/-- If the subset sweep accepts a non-empty receiver list, its head is
covered by some interval of the argument list. -/
theorem subsetSweep_head_covered :
    ∀ (B : VSet V) (a : versionInterval V) (as_ : VSet V),
      subsetSweep (a :: as_) B = true → ∃ b ∈ B, b.covers a = true := by
  intro B
  induction B with
  | nil =>
    intro a as_ h
    simp [subsetSweep] at h
  | cons b bs ih =>
    intro a as_ h
    rw [subsetSweep] at h
    by_cases h1 : b.covers a = true
    · exact ⟨b, List.mem_cons_self _ _, h1⟩
    · rw [if_neg h1] at h
      by_cases h2 : upperLessThanLower b.upper a.lower = true
      · rw [if_pos h2] at h
        obtain ⟨b', hb', hc⟩ := ih a as_ h
        exact ⟨b', List.mem_cons_of_mem _ hb', hc⟩
      · rw [if_neg h2] at h
        exact absurd h (by simp)

/-- Under sorted gap chains, an accepted disjointness sweep means no
interval of the first list overlaps any interval of the second. -/
theorem disjointSweep_sound :
    ∀ (A B : VSet V), NonEmptyIvs A → NonEmptyIvs B →
      List.Pairwise cutGap A → List.Pairwise cutGap B →
      disjointSweep A B = true →
      ∀ a ∈ A, ∀ b ∈ B, a.overlaps b = false := by
  intro A B
  induction A, B using disjointSweep.induct with
  | case1 B =>
    intro _ _ _ _ _ a ha
    exact absurd ha (List.not_mem_nil a)
  | case2 A hne =>
    intro _ _ _ _ _ a _ b hb
    exact absurd hb (List.not_mem_nil b)
  | case3 a as_ b bs hov =>
    intro _ _ _ _ hds
    rw [disjointSweep, if_pos hov] at hds
    exact absurd hds (by simp)
  | case4 a as_ b bs hov hcmp ih =>
    intro hneA hneB hchA hchB hds
    rw [disjointSweep, if_neg hov, if_pos hcmp] at hds
    have ihA := ih (fun iv hiv => hneA iv (List.mem_cons_of_mem _ hiv)) hneB
      (hchA.sublist (List.sublist_cons_self a as_)) hchB hds
    intro x hx y hy
    rcases List.mem_cons.mp hx with rfl | hx'
    · rcases List.mem_cons.mp hy with rfl | hy'
      · exact Bool.eq_false_iff.mpr hov
      · have hy2 : cutGap b y := (List.pairwise_cons.mp hchB).1 y hy'
        have hAu : UC x.upper < UC b.upper := compareUpper_neg_iff.mp hcmp
        have hnx : x.isEmpty = false := hneA x (List.mem_cons_self _ _)
        have hny : y.isEmpty = false := hneB y (List.mem_cons_of_mem _ hy')
        rw [Bool.eq_false_iff]
        intro hoy
        obtain ⟨h1, _⟩ := (overlaps_iff hnx hny).mp hoy
        exact absurd h1 (not_lt.mpr (le_of_lt (lt_of_lt_of_le hAu hy2)))
    · exact ihA x hx' y hy
  | case5 a as_ b bs hov hcmp ih =>
    intro hneA hneB hchA hchB hds
    rw [disjointSweep, if_neg hov, if_neg hcmp] at hds
    have ihB := ih hneA (fun iv hiv => hneB iv (List.mem_cons_of_mem _ hiv)) hchA
      (hchB.sublist (List.sublist_cons_self b bs)) hds
    intro x hx y hy
    rcases List.mem_cons.mp hy with rfl | hy'
    · rcases List.mem_cons.mp hx with rfl | hx'
      · exact Bool.eq_false_iff.mpr hov
      · have hx2 : cutGap a x := (List.pairwise_cons.mp hchA).1 x hx'
        have hBu : UC y.upper ≤ UC a.upper := compareUpper_nonneg_iff.mp (not_lt.mp hcmp)
        have hnx : x.isEmpty = false := hneA x (List.mem_cons_of_mem _ hx')
        have hny : y.isEmpty = false := hneB y (List.mem_cons_self _ _)
        rw [Bool.eq_false_iff]
        intro hxy
        obtain ⟨_, h2⟩ := (overlaps_iff hnx hny).mp hxy
        exact absurd h2 (not_lt.mpr (le_trans hBu hx2))
    · exact ihB x hx y hy'

/-- For normalized sets with a non-empty receiver, being a subset excludes
being disjoint: the receiver's head lies inside some interval of the
argument, which the two sweeps see consistently. -/
theorem subset_not_disjoint {A R : VSet V} (hA : Normalized A) (hR : Normalized R)
    (hAne : A ≠ []) (hsub : vsIsSubset A R = true) :
    vsIsDisjoint A R = false := by
  cases A with
  | nil => exact absurd rfl hAne
  | cons a as_ =>
    unfold vsIsSubset at hsub
    rw [if_neg (by simp)] at hsub
    cases R with
    | nil =>
      rw [if_pos (by simp)] at hsub
      exact absurd hsub (by simp)
    | cons r rs =>
      rw [if_neg (by simp)] at hsub
      obtain ⟨b, hb, hcov⟩ := subsetSweep_head_covered (r :: rs) a as_ hsub
      have hna : a.isEmpty = false := hA.1 a (List.mem_cons_self _ _)
      have hnb : b.isEmpty = false := hR.1 b hb
      have hov : a.overlaps b = true := by
        obtain ⟨hl, hu⟩ := covers_iff.mp hcov
        refine (overlaps_iff hna hnb).mpr ⟨?_, ?_⟩
        · exact lt_of_le_of_lt hl (nonempty_lt hna)
        · exact lt_of_lt_of_le (nonempty_lt hna) hu
      unfold vsIsDisjoint
      rw [if_neg (by simp), if_neg (by simp)]
      rw [Bool.eq_false_iff]
      intro hds
      have hfalse := disjointSweep_sound (a :: as_) (r :: rs) hA.1 hR.1
        (normalized_iff_cutGap.mp hA).2 (normalized_iff_cutGap.mp hR).2 hds
        a (List.mem_cons_self _ _) b hb
      rw [hov] at hfalse
      exact absurd hfalse (by simp)

/-- C2: for a term whose condition converts to the set `R`, with normalized
`A` the package's non-empty allowed set and `h` the has-assignment flag,
`relationForTerm` classifies exactly as specified: a positive term is
satisfied iff `A ⊆ R` and `h`, contradicted iff `A ∩ R = ∅`, otherwise
inconclusive; a negative term is satisfied iff `A ∩ R = ∅`, contradicted
iff `A ⊆ R` and `h`, otherwise inconclusive. -/
theorem claim_C2_relationForTerm (t : Term V) (A R : VSet V) (h : Bool)
    (hA : Normalized A) (hAne : A ≠ []) (hR : Normalized R) :
    (t.positive = true → termAllowedSet t = some R →
      ((relationForTerm t (some A) h = IncompRel.satisfied ↔
          (vsIsSubset A R = true ∧ h = true)) ∧
        (relationForTerm t (some A) h = IncompRel.contradicted ↔
          vsIsDisjoint A R = true) ∧
        (relationForTerm t (some A) h = IncompRel.inconclusive ↔
          (¬ (vsIsSubset A R = true ∧ h = true) ∧ ¬ vsIsDisjoint A R = true)))) ∧
    (t.positive = false → termForbiddenSet t = some R →
      ((relationForTerm t (some A) h = IncompRel.satisfied ↔
          vsIsDisjoint A R = true) ∧
        (relationForTerm t (some A) h = IncompRel.contradicted ↔
          (vsIsSubset A R = true ∧ h = true)) ∧
        (relationForTerm t (some A) h = IncompRel.inconclusive ↔
          (¬ vsIsDisjoint A R = true ∧ ¬ (vsIsSubset A R = true ∧ h = true))))) := by
  constructor
  · intro hp hconv
    cases hsub : vsIsSubset A R with
    | true =>
      have hdisj : vsIsDisjoint A R = false := subset_not_disjoint hA hR hAne hsub
      cases h <;> simp [relationForTerm, hp, hconv, hsub, hdisj]
    | false =>
      cases hdisj : vsIsDisjoint A R with
      | true => simp [relationForTerm, hp, hconv, hsub, hdisj]
      | false => simp [relationForTerm, hp, hconv, hsub, hdisj]
  · intro hp hconv
    cases hsub : vsIsSubset A R with
    | true =>
      have hdisj : vsIsDisjoint A R = false := subset_not_disjoint hA hR hAne hsub
      cases h <;> simp [relationForTerm, hp, hconv, hsub, hdisj]
    | false =>
      cases hdisj : vsIsDisjoint A R with
      | true => simp [relationForTerm, hp, hconv, hsub, hdisj]
      | false => simp [relationForTerm, hp, hconv, hsub, hdisj]

/-- C2 (witness): a positive term requiring `[1, 2)` against the allowed
set `[1, 2)` (a subset) with an assignment present is classified
satisfied. -/
theorem claim_C2_witness :
    relationForTerm
        (NewTerm "a" (some (Cond.vset (some
          [(⟨versionBound.finite (1 : Int) true, versionBound.finite 2 false⟩ :
            versionInterval Int)]))))
        (some [(⟨versionBound.finite (1 : Int) true, versionBound.finite 2 false⟩ :
          versionInterval Int)]) true = IncompRel.satisfied := by
  have hthm := claim_C2_relationForTerm
    (NewTerm "a" (some (Cond.vset (some [(⟨versionBound.finite (1 : Int) true,
      versionBound.finite 2 false⟩ : versionInterval Int)]))))
    [(⟨versionBound.finite (1 : Int) true, versionBound.finite 2 false⟩ : versionInterval Int)]
    [(⟨versionBound.finite (1 : Int) true, versionBound.finite 2 false⟩ : versionInterval Int)]
    true (by decide) (by decide) (by decide)
  refine ((hthm.1 rfl rfl).1).mpr ⟨?_, rfl⟩
  simp only [vsIsSubset, subsetSweep]
  decide

/-- A list with a known last element is that element appended to its
front. -/
theorem getLast?_decomp {α : Type} {l : List α} {b : α} (h : l.getLast? = some b) :
    l = l.dropLast ++ [b] := by
  have hne : l ≠ [] := by
    intro he
    rw [he] at h
    exact Option.noConfusion h
  have hgl := List.dropLast_append_getLast hne
  have hb : l.getLast hne = b := by
    have h2 := List.getLast?_eq_getLast l hne
    rw [h2] at h
    injection h
  rw [hb] at hgl
  exact hgl.symm

/-- The backtrack loop leaves an empty log unchanged. -/
theorem backtrackLoop_nil {ps : PartSol V} {lvl : Int}
    (h : ps.assignments.getLast? = none) :
    backtrackLoop ps lvl = ps := by
  rw [backtrackLoop.eq_def]
  split
  · rfl
  · rename_i last heq
    rw [h] at heq
    exact Option.noConfusion heq

/-- The backtrack loop stops when the last assignment is at or below the
target level. -/
theorem backtrackLoop_stop {ps : PartSol V} {lvl : Int} {last : Assignment V}
    (h : ps.assignments.getLast? = some last) (hle : last.decisionLevel ≤ lvl) :
    backtrackLoop ps lvl = ps := by
  rw [backtrackLoop.eq_def]
  split
  · rfl
  · rename_i l heq
    rw [h] at heq
    injection heq with heq
    subst heq
    rw [if_pos hle]

/-- The backtrack loop pops the last assignment when it is above the target
level. -/
theorem backtrackLoop_pop {ps : PartSol V} {lvl : Int} {last : Assignment V}
    (h : ps.assignments.getLast? = some last) (hgt : ¬ last.decisionLevel ≤ lvl) :
    backtrackLoop ps lvl = backtrackLoop ps.popLast lvl := by
  rw [backtrackLoop.eq_def]
  split
  · rename_i heq
    rw [h] at heq
    exact Option.noConfusion heq
  · rename_i l heq
    rw [h] at heq
    injection heq with heq
    subst heq
    rw [if_neg hgt]

/-- The pop step drops the last assignment from the log and from its
package's stack. -/
theorem popLast_eq {ps : PartSol V} {last : Assignment V}
    (h : ps.assignments.getLast? = some last) :
    ps.popLast = { ps with
      assignments := ps.assignments.dropLast
      perPackage := fun n =>
        if n = last.name then (ps.perPackage last.name).dropLast
        else ps.perPackage n } := by
  unfold PartSol.popLast
  split
  · rename_i heq
    rw [h] at heq
    exact Option.noConfusion heq
  · rename_i l heq
    rw [h] at heq
    injection heq with heq
    subst heq
    rfl

/-- The backtrack loop keeps exactly the assignments at or below the target
level (for a log with monotone levels and per-package stacks that project
the log), preserves the stack projection, and touches neither the decision
level, the next index, nor the root. -/
theorem backtrackLoop_spec :
    ∀ (ps : PartSol V) (lvl : Int),
      (∀ n, ps.perPackage n = ps.assignments.filter (fun a => a.name == n)) →
      List.Pairwise (fun a b : Assignment V => a.decisionLevel ≤ b.decisionLevel)
        ps.assignments →
      (backtrackLoop ps lvl).assignments =
          ps.assignments.filter (fun a => decide (a.decisionLevel ≤ lvl)) ∧
        (∀ n, (backtrackLoop ps lvl).perPackage n =
          (backtrackLoop ps lvl).assignments.filter (fun a => a.name == n)) ∧
        (backtrackLoop ps lvl).decisionLvl = ps.decisionLvl ∧
        (backtrackLoop ps lvl).nextIndex = ps.nextIndex ∧
        (backtrackLoop ps lvl).root = ps.root := by
  intro ps lvl
  induction ps, lvl using backtrackLoop.induct with
  | case1 ps lvl h =>
    intro hproj _
    have hnil : ps.assignments = [] := by
      cases hc : ps.assignments with
      | nil => rfl
      | cons x xs =>
        rw [hc] at h
        have := List.getLast?_eq_getLast (x :: xs) (by simp)
        rw [this] at h
        exact Option.noConfusion h
    rw [backtrackLoop_nil h]
    refine ⟨?_, fun n => hproj n, rfl, rfl, rfl⟩
    rw [hnil]
    rfl
  | case2 ps lvl last h hle =>
    intro hproj hmono
    rw [backtrackLoop_stop h hle]
    have hall : ∀ a ∈ ps.assignments, decide (a.decisionLevel ≤ lvl) = true := by
      intro a ha
      refine decide_eq_true ?_
      have hdecomp := getLast?_decomp h
      rw [hdecomp] at ha hmono
      rcases List.mem_append.mp ha with hin | hlastm
      · have hp := List.pairwise_append.mp hmono
        exact le_trans (hp.2.2 a hin last (by simp)) hle
      · rw [List.mem_singleton.mp hlastm]
        exact hle
    exact ⟨(List.filter_eq_self.mpr hall).symm, fun n => hproj n, rfl, rfl, rfl⟩
  | case3 ps lvl last h hgt ih =>
    intro hproj hmono
    have hdecomp := getLast?_decomp h
    have hpop := popLast_eq h
    have hpa : ps.popLast.assignments = ps.assignments.dropLast := by
      rw [hpop]
    have hlastp : (fun a : Assignment V => a.name == last.name) last = true := by
      simp
    have hproj2 : ∀ n, ps.popLast.perPackage n =
        ps.popLast.assignments.filter (fun a => a.name == n) := by
      intro n
      rw [hpop]
      show (if n = last.name then (ps.perPackage last.name).dropLast
        else ps.perPackage n) = ps.assignments.dropLast.filter (fun a => a.name == n)
      by_cases hn : n = last.name
      · subst hn
        rw [if_pos rfl, hproj last.name]
        conv_lhs => rw [hdecomp]
        rw [List.filter_append]
        rw [List.filter_cons_of_pos (p := fun a : Assignment V => a.name == last.name)
          (a := last) hlastp]
        show (ps.assignments.dropLast.filter (fun a => a.name == last.name) ++
          [last]).dropLast = _
        rw [List.dropLast_concat]
      · rw [if_neg hn, hproj n]
        conv_lhs => rw [hdecomp]
        rw [List.filter_append]
        have hlastn : ¬ ((fun a : Assignment V => a.name == n) last = true) := by
          simp
          intro he
          exact absurd he.symm hn
        rw [List.filter_cons_of_neg (p := fun a : Assignment V => a.name == n)
          (a := last) hlastn]
        show ps.assignments.dropLast.filter (fun a => a.name == n) ++
          List.filter (fun a => a.name == n) [] = _
        rw [List.filter_nil, List.append_nil]
    have hmono2 : List.Pairwise
        (fun a b : Assignment V => a.decisionLevel ≤ b.decisionLevel)
        ps.popLast.assignments := by
      rw [hpa]
      exact hmono.sublist (List.dropLast_sublist _)
    obtain ⟨ih1, ih2, ih3, ih4, ih5⟩ := ih hproj2 hmono2
    rw [backtrackLoop_pop h hgt]
    refine ⟨?_, ih2, ?_, ?_, ?_⟩
    · rw [ih1, hpa]
      conv_rhs => rw [hdecomp]
      rw [List.filter_append]
      have hlf : ¬ ((fun a : Assignment V => decide (a.decisionLevel ≤ lvl)) last
          = true) := by
        simp only [decide_eq_true_eq]
        exact hgt
      rw [List.filter_cons_of_neg
        (p := fun a : Assignment V => decide (a.decisionLevel ≤ lvl)) (a := last) hlf]
      rw [List.filter_nil, List.append_nil]
    · rw [ih3, hpop]
    · rw [ih4, hpop]
    · rw [ih5, hpop]

/-- C6: for a level `L ≥ 0`, on a partial solution whose per-package stacks
project the chronological log and whose log has monotone decision levels,
`backtrack(L)` keeps exactly the assignments with decision level at most
`L` (so every level-0 assignment, including the root decision, survives),
keeps the per-package stacks in lockstep with the truncated log, sets the
decision level to `L`, and gives every package the allowed set of the
replayed solution containing only the kept assignments. -/
theorem claim_C6_backtrack (ps : PartSol V) (L : Int) (hL : 0 ≤ L)
    (hproj : ∀ n, ps.perPackage n = ps.assignments.filter (fun a => a.name == n))
    (hmono : List.Pairwise (fun a b : Assignment V => a.decisionLevel ≤ b.decisionLevel)
      ps.assignments) :
    (ps.backtrack L).assignments =
      ps.assignments.filter (fun a => decide (a.decisionLevel ≤ L)) ∧
    (∀ n, (ps.backtrack L).perPackage n =
      (ps.backtrack L).assignments.filter (fun a => a.name == n)) ∧
    (ps.backtrack L).decisionLvl = L ∧
    (∀ a ∈ ps.assignments, a.decisionLevel = 0 → a ∈ (ps.backtrack L).assignments) ∧
    (∀ n, (ps.backtrack L).allowedSet n = PartSol.allowedSet
      { assignments := ps.assignments.filter (fun a => decide (a.decisionLevel ≤ L))
        perPackage := fun m => (ps.assignments.filter
          (fun a => decide (a.decisionLevel ≤ L))).filter (fun a => a.name == m)
        decisionLvl := L
        nextIndex := ps.nextIndex
        root := ps.root } n) := by
  have hlvl : (if L < 0 then 0 else L) = L := if_neg (not_lt.mpr hL)
  obtain ⟨h1, h2, h3, h4, h5⟩ := backtrackLoop_spec ps L hproj hmono
  have hbt : ps.backtrack L = { backtrackLoop ps L with decisionLvl := L } := by
    unfold PartSol.backtrack
    rw [hlvl]
  have hassign : (ps.backtrack L).assignments =
      ps.assignments.filter (fun a => decide (a.decisionLevel ≤ L)) := by
    rw [hbt]
    exact h1
  have hpp : ∀ n, (ps.backtrack L).perPackage n =
      (ps.assignments.filter (fun a => decide (a.decisionLevel ≤ L))).filter
        (fun a => a.name == n) := by
    intro n
    rw [hbt]
    show (backtrackLoop ps L).perPackage n = _
    rw [h2 n, h1]
  refine ⟨hassign, ?_, ?_, ?_, ?_⟩
  · intro n
    rw [hpp n, hassign]
  · rw [hbt]
  · intro a ha h0
    rw [hassign]
    refine List.mem_filter.mpr ⟨ha, decide_eq_true ?_⟩
    rw [h0]
    exact hL
  · intro n
    unfold PartSol.allowedSet
    rw [hpp n]

/-- C6 (witness): backtracking the three-decision example solution to level
1 sets the decision level to 1 and keeps exactly the root (level 0) and the
level-1 decision. -/
theorem claim_C6_witness :
    (examplePS.backtrack 1).decisionLvl = 1 ∧
    (examplePS.backtrack 1).assignments =
      examplePS.assignments.filter (fun a => decide (a.decisionLevel ≤ 1)) := by
  have h := claim_C6_backtrack examplePS 1 (by decide)
    (by
      intro n
      by_cases hb : n = "b"
      · subst hb
        rfl
      · by_cases ha : n = "a"
        · subst ha
          rfl
        · by_cases hr : n = "$$root"
          · subst hr
            rfl
          · have hb2 : (("b" : String) == n) = false :=
              beq_eq_false_iff_ne.mpr fun hx => hb hx.symm
            have ha2 : (("a" : String) == n) = false :=
              beq_eq_false_iff_ne.mpr fun hx => ha hx.symm
            have hr2 : (("$$root" : String) == n) = false :=
              beq_eq_false_iff_ne.mpr fun hx => hr hx.symm
            simp [examplePS, newPartialSolution, PartSol.seedRoot, PartSol.addDecision,
              PartSol.appendAssign, newDecisionAssignment, hb, ha, hr, hb2, ha2, hr2])
    (by decide)
  exact ⟨h.2.2.1, h.1⟩

/-- The solution built from a partial solution seeded with the root and
holding two decisions contains a pair for the root pseudo-package:
`buildSolution` does NOT exclude the root. -/
theorem claim_C5_counterexample :
    ("$$root", some (0 : Int)) ∈ examplePS.buildSolution ∧
    examplePS.buildSolution =
      [("$$root", some 0), ("a", some 1), ("b", some 2)] := by
  constructor <;> decide

/-- The `buildSolution` loop relative to an initial `seen` set: every
output pair is a fresh decided package with the version of its first
decision; the names are distinct; the pairs follow decision order; every
fresh decided package appears. -/
theorem buildSolutionAux_spec :
    ∀ (l : List (Assignment V)) (seen : List String),
      (∀ p ∈ buildSolutionAux seen l, p.1 ∉ seen ∧ ∃ a ∈ l,
          a.kind = AssignKind.decision ∧ a.name = p.1 ∧ a.version = p.2) ∧
      ((buildSolutionAux seen l).map Prod.fst).Nodup ∧
      (buildSolutionAux seen l).Sublist
        ((l.filter (fun a => decide (a.kind = AssignKind.decision))).map
          (fun a => (a.name, a.version))) ∧
      (∀ n : String, n ∉ seen →
        ((∃ p ∈ buildSolutionAux seen l, p.1 = n) ↔
          ∃ a ∈ l, a.kind = AssignKind.decision ∧ a.name = n)) ∧
      (∀ p ∈ buildSolutionAux seen l,
        ∃ a, l.find? (fun x => decide (x.kind = AssignKind.decision ∧ x.name = p.1)) =
            some a ∧ a.name = p.1 ∧ a.version = p.2) := by
  intro l
  induction l with
  | nil =>
    intro seen
    refine ⟨?_, ?_, ?_, ?_, ?_⟩ <;> simp [buildSolutionAux]
  | cons a rest ih =>
    intro seen
    by_cases hk : a.kind = AssignKind.decision
    · by_cases hs : a.name ∈ seen
      · have hd : buildSolutionAux seen (a :: rest) = buildSolutionAux seen rest := by
          simp [buildSolutionAux, hk, hs]
        obtain ⟨h1, h2, h3, h4, h5⟩ := ih seen
        rw [hd]
        refine ⟨?_, h2, ?_, ?_, ?_⟩
        · intro p hp
          obtain ⟨hps, x, hx, hq⟩ := h1 p hp
          exact ⟨hps, x, List.mem_cons_of_mem _ hx, hq⟩
        · have hfa : ((fun x : Assignment V =>
              decide (x.kind = AssignKind.decision)) a = true) := by simp [hk]
          rw [List.filter_cons_of_pos
            (p := fun x : Assignment V => decide (x.kind = AssignKind.decision))
            (a := a) hfa, List.map_cons]
          exact h3.cons _
        · intro n hn
          rw [h4 n hn]
          constructor
          · rintro ⟨x, hx, hxk, hxn⟩
            exact ⟨x, List.mem_cons_of_mem _ hx, hxk, hxn⟩
          · rintro ⟨x, hx, hxk, hxn⟩
            rcases List.mem_cons.mp hx with rfl | hx'
            · exact absurd (hxn ▸ hs) hn
            · exact ⟨x, hx', hxk, hxn⟩
        · intro p hp
          obtain ⟨x, hfind, hxn, hxv⟩ := h5 p hp
          have hp1 : p.1 ∉ seen := (h1 p hp).1
          have hpa : ¬ ((fun x : Assignment V =>
              decide (x.kind = AssignKind.decision ∧ x.name = p.1)) a = true) := by
            simp only [decide_eq_true_eq]
            rintro ⟨_, hname⟩
            exact hp1 (hname ▸ hs)
          refine ⟨x, ?_, hxn, hxv⟩
          rw [List.find?_cons_of_neg
            (p := fun x : Assignment V =>
              decide (x.kind = AssignKind.decision ∧ x.name = p.1)) (a := a) _ hpa]
          exact hfind
      · have hd : buildSolutionAux seen (a :: rest) =
            (a.name, a.version) :: buildSolutionAux (a.name :: seen) rest := by
          simp [buildSolutionAux, hk, hs]
        obtain ⟨h1, h2, h3, h4, h5⟩ := ih (a.name :: seen)
        rw [hd]
        refine ⟨?_, ?_, ?_, ?_, ?_⟩
        · intro p hp
          rcases List.mem_cons.mp hp with rfl | hp'
          · exact ⟨hs, a, List.mem_cons_self _ _, hk, rfl, rfl⟩
          · obtain ⟨hps, x, hx, hq⟩ := h1 p hp'
            exact ⟨fun hmem => hps (List.mem_cons_of_mem _ hmem), x,
              List.mem_cons_of_mem _ hx, hq⟩
        · rw [List.map_cons, List.nodup_cons]
          refine ⟨?_, h2⟩
          intro hmem
          rw [List.mem_map] at hmem
          obtain ⟨p, hp, hpe⟩ := hmem
          refine (h1 p hp).1 ?_
          rw [hpe]
          exact List.mem_cons_self _ _
        · have hfa : ((fun x : Assignment V =>
              decide (x.kind = AssignKind.decision)) a = true) := by simp [hk]
          rw [List.filter_cons_of_pos
            (p := fun x : Assignment V => decide (x.kind = AssignKind.decision))
            (a := a) hfa, List.map_cons]
          exact h3.cons₂ _
        · intro n hn
          constructor
          · rintro ⟨p, hp, hps⟩
            rcases List.mem_cons.mp hp with rfl | hp'
            · exact ⟨a, List.mem_cons_self _ _, hk, hps⟩
            · have hnan : n ≠ a.name := by
                obtain ⟨hps2, _⟩ := h1 p hp'
                intro he
                refine hps2 ?_
                rw [hps, he]
                exact List.mem_cons_self _ _
              have hn2 : n ∉ a.name :: seen := by
                intro hmem
                rcases List.mem_cons.mp hmem with he | hseen
                · exact hnan he
                · exact hn hseen
              obtain ⟨x, hx, hxk, hxn⟩ := (h4 n hn2).mp ⟨p, hp', hps⟩
              exact ⟨x, List.mem_cons_of_mem _ hx, hxk, hxn⟩
          · rintro ⟨x, hx, hxk, hxn⟩
            by_cases hna : n = a.name
            · exact ⟨(a.name, a.version), List.mem_cons_self _ _, hna.symm⟩
            · rcases List.mem_cons.mp hx with rfl | hx'
              · exact absurd hxn.symm hna
              · have hn2 : n ∉ a.name :: seen := by
                  intro hmem
                  rcases List.mem_cons.mp hmem with he | hseen
                  · exact hna he
                  · exact hn hseen
                obtain ⟨p, hp, hps⟩ := (h4 n hn2).mpr ⟨x, hx', hxk, hxn⟩
                exact ⟨p, List.mem_cons_of_mem _ hp, hps⟩
        · intro p hp
          rcases List.mem_cons.mp hp with rfl | hp'
          · have hpa : ((fun x : Assignment V =>
                decide (x.kind = AssignKind.decision ∧
                  x.name = (a.name, a.version).1)) a = true) := by
              simp [hk]
            refine ⟨a, ?_, rfl, rfl⟩
            rw [List.find?_cons_of_pos
              (p := fun x : Assignment V =>
                decide (x.kind = AssignKind.decision ∧
                  x.name = (a.name, a.version).1)) (a := a) _ hpa]
          · obtain ⟨x, hfind, hxn, hxv⟩ := h5 p hp'
            have hp1 : p.1 ∉ a.name :: seen := (h1 p hp').1
            have hpa : ¬ ((fun x : Assignment V =>
                decide (x.kind = AssignKind.decision ∧ x.name = p.1)) a = true) := by
              simp only [decide_eq_true_eq]
              rintro ⟨_, hname⟩
              refine hp1 ?_
              rw [← hname]
              exact List.mem_cons_self _ _
            refine ⟨x, ?_, hxn, hxv⟩
            rw [List.find?_cons_of_neg
              (p := fun x : Assignment V =>
                decide (x.kind = AssignKind.decision ∧ x.name = p.1)) (a := a) _ hpa]
            exact hfind
    · have hd : buildSolutionAux seen (a :: rest) = buildSolutionAux seen rest := by
        simp [buildSolutionAux, hk]
      obtain ⟨h1, h2, h3, h4, h5⟩ := ih seen
      rw [hd]
      refine ⟨?_, h2, ?_, ?_, ?_⟩
      · intro p hp
        obtain ⟨hps, x, hx, hq⟩ := h1 p hp
        exact ⟨hps, x, List.mem_cons_of_mem _ hx, hq⟩
      · have hfa : ¬ ((fun x : Assignment V =>
            decide (x.kind = AssignKind.decision)) a = true) := by
          simp only [decide_eq_true_eq]
          exact hk
        rw [List.filter_cons_of_neg
          (p := fun x : Assignment V => decide (x.kind = AssignKind.decision))
          (a := a) hfa]
        exact h3
      · intro n hn
        rw [h4 n hn]
        constructor
        · rintro ⟨x, hx, hxk, hxn⟩
          exact ⟨x, List.mem_cons_of_mem _ hx, hxk, hxn⟩
        · rintro ⟨x, hx, hxk, hxn⟩
          rcases List.mem_cons.mp hx with rfl | hx'
          · exact absurd hxk hk
          · exact ⟨x, hx', hxk, hxn⟩
      · intro p hp
        obtain ⟨x, hfind, hxn, hxv⟩ := h5 p hp
        have hpa : ¬ ((fun x : Assignment V =>
            decide (x.kind = AssignKind.decision ∧ x.name = p.1)) a = true) := by
          simp only [decide_eq_true_eq]
          rintro ⟨hk2, _⟩
          exact hk hk2
        refine ⟨x, ?_, hxn, hxv⟩
        rw [List.find?_cons_of_neg
          (p := fun x : Assignment V =>
            decide (x.kind = AssignKind.decision ∧ x.name = p.1)) (a := a) _ hpa]
        exact hfind

/-- C5 (amended): `buildSolution` returns the ordered list of decision
`(name, version)` pairs with one pair per decided package — INCLUDING the
root pseudo-package (buildSolution performs no root filtering; see the
counterexample): every pair comes from a decision, names are distinct,
pairs follow the chronological decision order, every decided package
appears, and each pair carries the version of the package's first
decision. -/
theorem claim_C5_buildSolution (ps : PartSol V) :
    (∀ p ∈ ps.buildSolution, ∃ a ∈ ps.assignments,
        a.kind = AssignKind.decision ∧ a.name = p.1 ∧ a.version = p.2) ∧
    ((ps.buildSolution.map Prod.fst).Nodup) ∧
    ps.buildSolution.Sublist
      ((ps.assignments.filter (fun a => decide (a.kind = AssignKind.decision))).map
        (fun a => (a.name, a.version))) ∧
    (∀ n : String, (∃ p ∈ ps.buildSolution, p.1 = n) ↔
      ∃ a ∈ ps.assignments, a.kind = AssignKind.decision ∧ a.name = n) ∧
    (∀ p ∈ ps.buildSolution,
      ∃ a, ps.assignments.find?
          (fun x => decide (x.kind = AssignKind.decision ∧ x.name = p.1)) = some a ∧
        a.name = p.1 ∧ a.version = p.2) := by
  obtain ⟨h1, h2, h3, h4, h5⟩ := buildSolutionAux_spec ps.assignments []
  exact ⟨fun p hp => (h1 p hp).2, h2, h3, fun n => h4 n (List.not_mem_nil n), h5⟩

end PubGrubGo
